import Mathlib

/-! # Quaternion Newton fractals: arithmetic core, Newton iteration and colours

A shallow embedding of `qnf_quaternion.hpp`, `qnf_setup.hpp`, `qnf_pi.hpp`,
`qnf_color.hpp` and the per-pixel body of `main.cpp`.

The C++ type `double` is read as an exact number: every definition is generic
over a field `K` (a linearly ordered field where the code compares numbers, with
a floor where it casts to `unsigned char`), so the same definition runs on `ℚ`
and is a statement about `ℝ`.  Rounding, infinities and NaN are therefore outside
this model; `1.0 / r` is the field inverse, and statements that depend on the
divisor carry the hypothesis that it is non-zero.  Decimal constants are the
decimals as written, except `pxfact` and `pyfact`, which are the `double` the
literal denotes.  `std::sqrt` is `Real.sqrt` and `std::atan2` the argument of
a complex number; what uses them is over `ℝ`.  An `unsigned char` is a natural
number, and a cast that does not fit is read modulo 256.

Where a result turns on the last bit of a `double`, the function is given a
second time with every floating-point operation rounded to binary64
(`binary64`, to nearest, ties to even, over `ℚ`): `color_wheel_binary64` and
`color.mul_scalar_binary64`.
-/

namespace qnf

/-- Struct `qnf::quaternion`: the array `double dat[4]`, one field per entry. -/
@[ext]
structure quaternion (K : Type) where
  dat0 : K
  dat1 : K
  dat2 : K
  dat3 : K
deriving DecidableEq, Repr

namespace quaternion

variable {K : Type}

/-- Empty constructor `quaternion(void)`: the origin. -/
def zero [Zero K] : quaternion K := ⟨0, 0, 0, 0⟩

/-- Quaternion addition `operator + (const quaternion &)`. -/
def add [Add K] (p q : quaternion K) : quaternion K :=
  let a := p.dat0 + q.dat0
  let x := p.dat1 + q.dat1
  let y := p.dat2 + q.dat2
  let z := p.dat3 + q.dat3
  ⟨a, x, y, z⟩

/-- Quaternion subtraction `operator - (const quaternion &)`. -/
def sub [Sub K] (p q : quaternion K) : quaternion K :=
  let a := p.dat0 - q.dat0
  let x := p.dat1 - q.dat1
  let y := p.dat2 - q.dat2
  let z := p.dat3 - q.dat3
  ⟨a, x, y, z⟩

/-- Addition with a real number, `operator + (double)`: adds to the real part. -/
def add_scalar [Add K] (p : quaternion K) (a : K) : quaternion K :=
  ⟨p.dat0 + a, p.dat1, p.dat2, p.dat3⟩

/-- Subtraction of a real number, `operator - (double)`. -/
def sub_scalar [Sub K] (p : quaternion K) (a : K) : quaternion K :=
  ⟨p.dat0 - a, p.dat1, p.dat2, p.dat3⟩

/-- Scalar multiplication `operator * (double)`, component-wise. -/
def mul_scalar [Mul K] (p : quaternion K) (a : K) : quaternion K :=
  ⟨a * p.dat0, a * p.dat1, a * p.dat2, a * p.dat3⟩

/-- Division by a scalar `operator / (double)`: the reciprocal is computed once. -/
def div_scalar [Field K] (p : quaternion K) (r : K) : quaternion K :=
  let factor := 1 / r
  let a := p.dat0 * factor
  let x := p.dat1 * factor
  let y := p.dat2 * factor
  let z := p.dat3 * factor
  ⟨a, x, y, z⟩

/-- Quaternion multiplication `operator * (const quaternion &)`, sixteen real
multiplications. -/
def mul [Ring K] (p q : quaternion K) : quaternion K :=
  let a := p.dat0 * q.dat0 - p.dat1 * q.dat1 - p.dat2 * q.dat2 - p.dat3 * q.dat3
  let x := p.dat0 * q.dat1 + p.dat1 * q.dat0 + p.dat2 * q.dat3 - p.dat3 * q.dat2
  let y := p.dat0 * q.dat2 - p.dat1 * q.dat3 + p.dat2 * q.dat0 + p.dat3 * q.dat1
  let z := p.dat0 * q.dat3 + p.dat1 * q.dat2 - p.dat2 * q.dat1 + p.dat3 * q.dat0
  ⟨a, x, y, z⟩

/-- The square of the Euclidean norm, `norm_sq`. -/
def norm_sq [Ring K] (p : quaternion K) : K :=
  p.dat0 * p.dat0 + p.dat1 * p.dat1 + p.dat2 * p.dat2 + p.dat3 * p.dat3

/-- The square of a quaternion, `square`. -/
def square [Ring K] (p : quaternion K) : quaternion K :=
  let a := p.dat0 * p.dat0 - p.dat1 * p.dat1 - p.dat2 * p.dat2 - p.dat3 * p.dat3
  let x := 2 * p.dat0 * p.dat1
  let y := 2 * p.dat0 * p.dat2
  let z := 2 * p.dat0 * p.dat3
  ⟨a, x, y, z⟩

/-- The cube of a quaternion, `cube`. -/
def cube [Ring K] (p : quaternion K) : quaternion K :=
  let rsq := p.dat0 * p.dat0
  let vsq := p.dat1 * p.dat1 + p.dat2 * p.dat2 + p.dat3 * p.dat3
  let factor := 3 * rsq - vsq
  let a := (rsq - 3 * vsq) * p.dat0
  let x := factor * p.dat1
  let y := factor * p.dat2
  let z := factor * p.dat3
  ⟨a, x, y, z⟩

/-- The quaternion conjugate, `conjugate`: negates the imaginary parts. -/
def conjugate [Neg K] (p : quaternion K) : quaternion K :=
  ⟨p.dat0, -p.dat1, -p.dat2, -p.dat3⟩

/-- The multiplicative inverse, `reciprocal`. -/
def reciprocal [Field K] (p : quaternion K) : quaternion K :=
  let factor := 1 / p.norm_sq
  let a := factor * p.dat0
  let x := -factor * p.dat1
  let y := -factor * p.dat2
  let z := -factor * p.dat3
  ⟨a, x, y, z⟩

/-- Quaternion division `operator / (const quaternion &)`, expanded in place. -/
def div [Field K] (p q : quaternion K) : quaternion K :=
  let a := p.dat0 * q.dat0 + p.dat1 * q.dat1 + p.dat2 * q.dat2 + p.dat3 * q.dat3
  let x := -p.dat0 * q.dat1 + p.dat1 * q.dat0 - p.dat2 * q.dat3 + p.dat3 * q.dat2
  let y := -p.dat0 * q.dat2 + p.dat1 * q.dat3 + p.dat2 * q.dat0 - p.dat3 * q.dat1
  let z := -p.dat0 * q.dat3 - p.dat1 * q.dat2 + p.dat2 * q.dat1 + p.dat3 * q.dat0
  let factor := 1 / q.norm_sq
  ⟨a * factor, x * factor, y * factor, z * factor⟩

/-- The same element in the quaternion algebra `ℍ[K]` of the library, whose
product is defined from `i² = j² = -1`, `ij = k`. -/
def toLibrary [CommRing K] (p : quaternion K) : Quaternion K :=
  ⟨p.dat0, p.dat1, p.dat2, p.dat3⟩

/-- Quaternion addition in place, `operator += (const quaternion &)`: the new
value of `*this`. -/
def add_assign [Add K] (p q : quaternion K) : quaternion K :=
  ⟨p.dat0 + q.dat0, p.dat1 + q.dat1, p.dat2 + q.dat2, p.dat3 + q.dat3⟩

/-- Scalar multiplication in place, `operator *= (double)`. -/
def mul_scalar_assign [Mul K] (p : quaternion K) (a : K) : quaternion K :=
  ⟨p.dat0 * a, p.dat1 * a, p.dat2 * a, p.dat3 * a⟩

/-- The Euclidean norm, `norm`: the square root of `norm_sq`. -/
noncomputable def norm (p : quaternion ℝ) : ℝ :=
  Real.sqrt p.norm_sq

/-- Normalization to unit magnitude, `normalize`. -/
noncomputable def normalize (p : quaternion ℝ) : quaternion ℝ :=
  let factor := 1 / p.norm
  let a := p.dat0 * factor
  let x := p.dat1 * factor
  let y := p.dat2 * factor
  let z := p.dat3 * factor
  ⟨a, x, y, z⟩

end quaternion

/-- The quaternion metric, `dist`: the Euclidean norm of the difference. -/
noncomputable def dist (q p : quaternion ℝ) : ℝ :=
  let da := q.dat0 - p.dat0
  let dx := q.dat1 - p.dat1
  let dy := q.dat2 - p.dat2
  let dz := q.dat3 - p.dat3
  Real.sqrt (da * da + dx * dx + dy * dy + dz * dz)

namespace setup

/-- The starting width and height of the image, `start`. -/
def start {K : Type} [Field K] : K := -3.0

/-- The ending width and height of the image, `end`. -/
def «end» {K : Type} [Field K] : K := 3.0

/-- Number of pixels in the x axis, `xsize`. -/
def xsize : Nat := 1024

/-- Number of pixels in the y axis, `ysize`. -/
def ysize : Nat := 1024

/-- The factor `pxfact` from pixels to points.  The literal
`5.8651026392961877E-03` is read as the `double` it denotes,
`0x1.8060180601806p-8 = 3381001479785475 / 2^59`. -/
def pxfact {K : Type} [Field K] : K := 3381001479785475 / 2 ^ 59

/-- The factor `pyfact` from pixels to points, the same `double` as `pxfact`. -/
def pyfact {K : Type} [Field K] : K := 3381001479785475 / 2 ^ 59

/-- Maximum number of iterations allowed in Newton's method, `max_iters`. -/
def max_iters : Nat := 32

end setup

/-- The polynomial of `main.cpp`, `func`: `q.cube() - 1.0`. -/
def func {K : Type} [Field K] (q : quaternion K) : quaternion K :=
  q.cube.sub_scalar 1

/-- One Newton update of `main.cpp`, `newton`. -/
def newton {K : Type} [Field K] (q : quaternion K) : quaternion K :=
  let num := (q.cube.mul_scalar 2).add_scalar 1
  let den := q.square.mul_scalar 3
  num.div den

/-- The constant `eps_sq = 1.0E-16` of `main`. -/
def eps_sq {K : Type} [Field K] : K := 1e-16

/-- The variables of the per-pixel loop of `main`: the point `q`, the residual
`p` and the counter `iters`. -/
structure loop_state (K : Type) where
  q : quaternion K
  p : quaternion K
  iters : Nat
deriving DecidableEq, Repr

/-- The loop `for (iters = ...; iters < max_iters; ++iters)` of `main`, entered
with the given values of `q`, `p` and `iters`; the result is the state on exit. -/
def newton_loop_from {K : Type} [LinearOrderedField K]
    (q p : quaternion K) (iters : Nat) : loop_state K :=
  if iters < setup.max_iters then
    if p.norm_sq < eps_sq then
      ⟨q, p, iters⟩
    else
      newton_loop_from (newton q) (func (newton q)) (iters + 1)
  else
    ⟨q, p, iters⟩
termination_by setup.max_iters - iters

/-- The per-pixel Newton iteration of `main` from the starting point `q`:
`p = func(q)`, then the loop from `iters = 0`. -/
def newton_loop {K : Type} [LinearOrderedField K] (q : quaternion K) : loop_state K :=
  newton_loop_from q (func q) 0

/-! ### Colours (`qnf_pi.hpp`, `qnf_color.hpp`) -/

/-- The macro `HALF_PI` of `qnf_pi.hpp`, the decimal as written. -/
def HALF_PI {K : Type} [Field K] : K := 1.5707963267948966

/-- The macro `ONE_PI` of `qnf_pi.hpp`, the decimal as written. -/
def ONE_PI {K : Type} [Field K] : K := 3.141592653589793

/-- The macro `TWO_PI` of `qnf_pi.hpp`, the decimal as written. -/
def TWO_PI {K : Type} [Field K] : K := 6.283185307179586

/-- The conversion `static_cast<unsigned char>(x)` of a `double`: the fractional
part is discarded (rounding toward zero) and the integer is stored in eight
bits.  An integer outside `0..255` is read modulo 256. -/
def to_uchar {K : Type} [LinearOrderedField K] [FloorRing K] (x : K) : Nat :=
  ((if 0 ≤ x then ⌊x⌋ else ⌈x⌉) % 256).toNat

/-- Struct `qnf::color`: the channels `unsigned char red, green, blue`. -/
@[ext]
structure color where
  red : Nat
  green : Nat
  blue : Nat
deriving DecidableEq, Repr

namespace color

/-- Scaling of a colour, `operator * (double)`: each channel is scaled by `t` and
cast back to `unsigned char`. -/
def mul_scalar {K : Type} [LinearOrderedField K] [FloorRing K] (c : color) (t : K) : color :=
  let r := to_uchar (t * (c.red : K))
  let g := to_uchar (t * (c.green : K))
  let b := to_uchar (t * (c.blue : K))
  ⟨r, g, b⟩

/-- Scaling of a colour in place, `operator *= (double)`: the new value of
`*this`. -/
def mul_scalar_assign {K : Type} [LinearOrderedField K] [FloorRing K] (c : color) (t : K) :
    color :=
  ⟨to_uchar (t * (c.red : K)), to_uchar (t * (c.green : K)), to_uchar (t * (c.blue : K))⟩

/-- Mixing of two colours, `operator + (const color &)`: the channels are averaged
as `double`s (of type `K`) and cast back to `unsigned char`. -/
def add (K : Type) [LinearOrderedField K] [FloorRing K] (c1 c2 : color) : color :=
  let x : K := 0.5 * ((c1.red : K) + (c2.red : K))
  let y : K := 0.5 * ((c1.green : K) + (c2.green : K))
  let z : K := 0.5 * ((c1.blue : K) + (c2.blue : K))
  let r := to_uchar x
  let g := to_uchar y
  let b := to_uchar z
  ⟨r, g, b⟩

/-- Mixing of two colours in place, `operator += (const color &)`: the new value
of `*this`. -/
def add_assign (K : Type) [LinearOrderedField K] [FloorRing K] (c1 c2 : color) : color :=
  let x : K := 0.5 * ((c1.red : K) + (c2.red : K))
  let y : K := 0.5 * ((c1.green : K) + (c2.green : K))
  let z : K := 0.5 * ((c1.blue : K) + (c2.blue : K))
  ⟨to_uchar x, to_uchar y, to_uchar z⟩

end color

namespace colors

/-- Constant colour `white`. -/
def white : color := ⟨0xFF, 0xFF, 0xFF⟩

/-- Constant colour `black`. -/
def black : color := ⟨0x00, 0x00, 0x00⟩

/-- Constant colour `red`. -/
def red : color := ⟨0xFF, 0x00, 0x00⟩

/-- Constant colour `green`. -/
def green : color := ⟨0x00, 0xFF, 0x00⟩

/-- Constant colour `blue`. -/
def blue : color := ⟨0x00, 0x00, 0xFF⟩

/-- Constant colour `yellow`. -/
def yellow : color := ⟨0xFF, 0xFF, 0x00⟩

end colors

/-- The local constant `gradient_factor = 1535 / TWO_PI` of `color_wheel`. -/
def gradient_factor {K : Type} [Field K] : K := 1535 / TWO_PI

/-- The initial value of the local variable `val` of `color_wheel`: the hue index
`(angle + ONE_PI) * gradient_factor` of an angle. -/
def color_wheel_val {K : Type} [Field K] (angle : K) : K :=
  (angle + ONE_PI) * gradient_factor

/-- The hue of an angle, `color_wheel`: six ramps of width 256 in the hue index,
blue outside of them.  The reassignments `val -= ...` are the inner `let`s. -/
def color_wheel {K : Type} [LinearOrderedField K] [FloorRing K] (angle : K) : color :=
  let val := color_wheel_val angle
  if val < 0 then
    colors.blue
  else if val < 256 then
    ⟨0x00, to_uchar val, 0xFF⟩
  else if val < 512 then
    let val := val - 256
    ⟨0x00, 0xFF, to_uchar (256 - val)⟩
  else if val < 768 then
    let val := val - 512
    ⟨to_uchar val, 0xFF, 0x00⟩
  else if val < 1024 then
    let val := val - 768
    ⟨0xFF, to_uchar (256 - val), 0x00⟩
  else if val < 1280 then
    let val := val - 1024
    ⟨0xFF, 0x00, to_uchar val⟩
  else if val < 1536 then
    let val := val - 1280
    ⟨to_uchar (256 - val), 0x00, 0xFF⟩
  else
    colors.blue

/-- The `double` that `color_wheel` passes to `static_cast<unsigned char>` for an
angle: `val` on the ascending ramps, `256.0 - val` on the descending ramps, and
none where the function returns blue without a cast.  The branches are those of
`color_wheel`. -/
def color_wheel_cast {K : Type} [LinearOrderedField K] (angle : K) : Option K :=
  let val := color_wheel_val angle
  if val < 0 then
    none
  else if val < 256 then
    some val
  else if val < 512 then
    let val := val - 256
    some (256 - val)
  else if val < 768 then
    let val := val - 512
    some val
  else if val < 1024 then
    let val := val - 768
    some (256 - val)
  else if val < 1280 then
    let val := val - 1024
    some val
  else if val < 1536 then
    let val := val - 1280
    some (256 - val)
  else
    none

/-- The function `clamp`: cuts a value to the range `[0, 255]`. -/
def clamp {K : Type} [LinearOrderedField K] (x : K) : K :=
  if x < 0 then 0
  else if x > 255 then 255
  else x

/-- The function `saturate`: shifts every channel by `255 * val`, clamped. -/
def saturate {K : Type} [LinearOrderedField K] [FloorRing K] (c : color) (val : K) : color :=
  let r := clamp ((c.red : K) + 255 * val)
  let g := clamp ((c.green : K) + 255 * val)
  let b := clamp ((c.blue : K) + 255 * val)
  let red := to_uchar r
  let green := to_uchar g
  let blue := to_uchar b
  ⟨red, green, blue⟩

/-- The function `sphere_color`: hue from the longitude `theta`, shade from the
latitude `phi`. -/
def sphere_color {K : Type} [LinearOrderedField K] [FloorRing K] (phi theta : K) : color :=
  let s := (phi + HALF_PI) / HALF_PI - 1
  let c := color_wheel theta
  saturate c s

/-! ### The colour of a pixel (`main.cpp`) -/

/-- The constant `eps = 1.0E-8` of `main`. -/
def eps {K : Type} [Field K] : K := 1e-8

/-- The library function `std::atan2(y, x)` read exactly: the argument of
`x + iy`, in `(-π, π]`, and `0` at the origin. -/
noncomputable def atan2 (y x : ℝ) : ℝ := Complex.arg ⟨x, y⟩

/-- The colour choice of `main` after the loop, from the exit values of `q` and
`p` (the `if` / `else if` / `else` that assigns `c`). -/
noncomputable def pixel_color (q p : quaternion ℝ) : color :=
  let one : quaternion ℝ := ⟨1, 0, 0, 0⟩
  if p.norm_sq > eps_sq then
    colors.black
  else if dist q one < eps then
    colors.white.mul_scalar (0.5 : ℝ)
  else
    let rho_sq := q.dat1 * q.dat1 + q.dat2 * q.dat2
    let rho := Real.sqrt rho_sq
    let phi := atan2 q.dat3 rho
    let theta := atan2 q.dat2 q.dat1
    sphere_color phi theta

/-- The body of the pixel loop of `main` from the starting point `q`: the Newton
loop, then the colour choice. -/
noncomputable def pixel (q : quaternion ℝ) : color :=
  pixel_color (newton_loop q).q (newton_loop q).p

/-! ### The sample plane (`main.cpp`) -/

/-- The basis quaternion `u0` of a frame, from `cos_ang` and `sin_ang`. -/
def u0 {K : Type} [Zero K] (cos_ang sin_ang : K) : quaternion K :=
  ⟨cos_ang, sin_ang, 0, 0⟩

/-- The basis quaternion `u1` of a frame, from `cos_ang` and `sin_ang`. -/
def u1 {K : Type} [Zero K] (cos_ang sin_ang : K) : quaternion K :=
  ⟨0, 0, cos_ang, sin_ang⟩

/-- The sample coordinate `a0 = start + pyfact * y` of the pixel row `y`. -/
def a0 {K : Type} [Field K] (y : Nat) : K :=
  setup.start + setup.pyfact * (y : K)

/-- The sample coordinate `a1 = start + pxfact * x` of the pixel column `x`. -/
def a1 {K : Type} [Field K] (x : Nat) : K :=
  setup.start + setup.pxfact * (x : K)

/-- The starting point `q = u0*a0 + u1*a1` of the pixel `(x, y)` in a frame with
the given `cos_ang` and `sin_ang`. -/
def pixel_start {K : Type} [Field K] (cos_ang sin_ang : K) (x y : Nat) : quaternion K :=
  ((u0 cos_ang sin_ang).mul_scalar (a0 y)).add ((u1 cos_ang sin_ang).mul_scalar (a1 x))

/-- The expression `u0*a0 + u1*a1` of `main` for arbitrary sample coordinates
`s0` (for `a0`) and `s1` (for `a1`). -/
def plane_point {K : Type} [Field K] (cos_ang sin_ang s0 s1 : K) : quaternion K :=
  ((u0 cos_ang sin_ang).mul_scalar s0).add ((u1 cos_ang sin_ang).mul_scalar s1)

/-! ### Binary64 rounding -/

/-- Rounding to the nearest integer, ties to the even one. -/
def round_half_even (x : ℚ) : ℤ :=
  if x - ⌊x⌋ < 1 / 2 then ⌊x⌋
  else if 1 / 2 < x - ⌊x⌋ then ⌊x⌋ + 1
  else if ⌊x⌋ % 2 = 0 then ⌊x⌋
  else ⌊x⌋ + 1

/-- Rounding of a positive number to 53 significant bits: to the nearest multiple
of `2^(e-52)`, ties to even, where `2^e ≤ x < 2^(e+1)`. -/
def binary64_pos (x : ℚ) : ℚ :=
  (round_half_even (x / 2 ^ (Int.log 2 x - 52)) : ℚ) * 2 ^ (Int.log 2 x - 52)

/-- The value a `double` operation stores for the exact result `x`: rounding to
binary64, to nearest with ties to even, on the sign and the magnitude.  The
exponent range is not limited: overflow and subnormal numbers are not modelled. -/
def binary64 (x : ℚ) : ℚ :=
  if 0 < x then binary64_pos x
  else if x < 0 then -binary64_pos (-x)
  else 0

namespace color

/-- Scaling of a colour, `operator * (double)`, with the product rounded to
binary64 before the cast. -/
def mul_scalar_binary64 (c : color) (t : ℚ) : color :=
  let r := to_uchar (binary64 (t * (c.red : ℚ)))
  let g := to_uchar (binary64 (t * (c.green : ℚ)))
  let b := to_uchar (binary64 (t * (c.blue : ℚ)))
  ⟨r, g, b⟩

/-- Scaling of a colour in place, `operator *= (double)`, with the product rounded
to binary64 before the cast. -/
def mul_scalar_assign_binary64 (c : color) (t : ℚ) : color :=
  ⟨to_uchar (binary64 (t * (c.red : ℚ))), to_uchar (binary64 (t * (c.green : ℚ))),
    to_uchar (binary64 (t * (c.blue : ℚ)))⟩

end color

end qnf


/-! ## Quaternion arithmetic -/

namespace qnf

namespace quaternion

variable {K : Type}

/-- The squared norm of a quaternion other than the origin is positive. -/
theorem norm_sq_pos [LinearOrderedField K] (q : quaternion K) (h : q ≠ zero) :
    0 < q.norm_sq := by
  have h0 : 0 ≤ q.norm_sq := by
    unfold norm_sq
    nlinarith [mul_self_nonneg q.dat0, mul_self_nonneg q.dat1, mul_self_nonneg q.dat2,
      mul_self_nonneg q.dat3]
  rcases h0.lt_or_eq with hlt | heq
  · exact hlt
  · exfalso
    apply h
    unfold norm_sq at heq
    have e0 : q.dat0 = 0 := by
      nlinarith [mul_self_nonneg q.dat0, mul_self_nonneg q.dat1, mul_self_nonneg q.dat2,
        mul_self_nonneg q.dat3]
    have e1 : q.dat1 = 0 := by
      nlinarith [mul_self_nonneg q.dat0, mul_self_nonneg q.dat1, mul_self_nonneg q.dat2,
        mul_self_nonneg q.dat3]
    have e2 : q.dat2 = 0 := by
      nlinarith [mul_self_nonneg q.dat0, mul_self_nonneg q.dat1, mul_self_nonneg q.dat2,
        mul_self_nonneg q.dat3]
    have e3 : q.dat3 = 0 := by
      nlinarith [mul_self_nonneg q.dat0, mul_self_nonneg q.dat1, mul_self_nonneg q.dat2,
        mul_self_nonneg q.dat3]
    ext <;> simp [zero, e0, e1, e2, e3]

/-- The denominator `3·q²` of the Newton update has squared norm `9·‖q‖⁴`. -/
theorem norm_sq_three_square [CommRing K] (q : quaternion K) :
    (q.square.mul_scalar 3).norm_sq = 9 * q.norm_sq ^ 2 := by
  simp only [square, mul_scalar, norm_sq]
  ring

/-- The general product of `q` with itself is the optimised `square`. -/
theorem mul_self_eq_square [CommRing K] (q : quaternion K) : q.mul q = q.square := by
  ext <;> simp only [square, mul] <;> ring

/-- The general product `(q*q)*q` is the optimised `cube`. -/
theorem mul_mul_self_eq_cube [CommRing K] (q : quaternion K) : (q.mul q).mul q = q.cube := by
  ext <;> simp only [cube, mul] <;> ring

/-- Right multiplication by the reciprocal is the expanded division. -/
theorem mul_reciprocal_eq_div [Field K] (p q : quaternion K) :
    p.mul q.reciprocal = p.div q := by
  ext <;> simp only [div, mul, reciprocal] <;> ring

/-- C1: for all `p = (a,x,y,z)` and `q = (a',x',y',z')`, `operator*` returns
`(a·a' − x·x' − y·y' − z·z', a·x' + x·a' + y·z' − z·y', a·y' − x·z' + y·a' + z·x',
a·z' + x·y' − y·x' + z·a')`; it is the product of the standard quaternion algebra:
the embedding into `ℍ[K]` carries it to the library product, and the units
`i = (0,1,0,0)`, `j = (0,0,1,0)`, `k = (0,0,0,1)` satisfy `i² = j² = k² = ijk = −1`. -/
theorem mul_is_hamilton_product [CommRing K] (a x y z a' x' y' z' : K) :
    mul ⟨a, x, y, z⟩ ⟨a', x', y', z'⟩ =
        ⟨a * a' - x * x' - y * y' - z * z', a * x' + x * a' + y * z' - z * y',
         a * y' - x * z' + y * a' + z * x', a * z' + x * y' - y * x' + z * a'⟩ ∧
      toLibrary (mul ⟨a, x, y, z⟩ ⟨a', x', y', z'⟩) =
        toLibrary ⟨a, x, y, z⟩ * toLibrary ⟨a', x', y', z'⟩ ∧
      mul (⟨0, 1, 0, 0⟩ : quaternion K) ⟨0, 1, 0, 0⟩ = ⟨-1, 0, 0, 0⟩ ∧
      mul (⟨0, 0, 1, 0⟩ : quaternion K) ⟨0, 0, 1, 0⟩ = ⟨-1, 0, 0, 0⟩ ∧
      mul (⟨0, 0, 0, 1⟩ : quaternion K) ⟨0, 0, 0, 1⟩ = ⟨-1, 0, 0, 0⟩ ∧
      mul (mul (⟨0, 1, 0, 0⟩ : quaternion K) ⟨0, 0, 1, 0⟩) ⟨0, 0, 0, 1⟩ = ⟨-1, 0, 0, 0⟩ := by
  refine ⟨rfl, ?_, ?_, ?_, ?_, ?_⟩
  · ext <;> simp [mul, toLibrary]
  all_goals simp [mul]

/-- C2: for every quaternion `p`, `p.square()` equals the general product `p*p`. -/
theorem square_eq_mul_self [CommRing K] (p : quaternion K) : p.square = p.mul p := by
  ext <;> simp [square, mul] <;> ring

/-- C3: for every quaternion `p`, `p.cube()` equals `p*p*p` and equals
`p.square()*p`. -/
theorem cube_eq_mul_mul [CommRing K] (p : quaternion K) :
    p.cube = (p.mul p).mul p ∧ p.cube = p.square.mul p := by
  constructor <;> ext <;> simp [cube, square, mul] <;> ring

/-- C4: for every `p` and every `q` with non-zero squared norm, `(p / q) * q`
equals `p`. -/
theorem div_mul_divisor [Field K] (p q : quaternion K) (h : q.norm_sq ≠ 0) :
    (p.div q).mul q = p := by
  have h' : q.dat0 * q.dat0 + q.dat1 * q.dat1 + q.dat2 * q.dat2 + q.dat3 * q.dat3 ≠ 0 := h
  ext <;> simp only [div, mul, norm_sq] <;> field_simp <;> ring

/-- C5: for all `p` and `q`, the expanded division `p / q` equals the product
`p * q.reciprocal()`. -/
theorem div_eq_mul_reciprocal [Field K] (p q : quaternion K) :
    p.div q = p.mul q.reciprocal := by
  ext <;> simp only [div, mul, reciprocal] <;> ring

/-- C6: for every `p` with non-zero squared norm, `p.reciprocal() * p` equals
`(1,0,0,0)`, and `p.reciprocal()` equals `p.conjugate()` divided by the scalar
`p.norm_sq()`. -/
theorem reciprocal_mul_self [Field K] (p : quaternion K) (h : p.norm_sq ≠ 0) :
    p.reciprocal.mul p = ⟨1, 0, 0, 0⟩ ∧
      p.reciprocal = p.conjugate.div_scalar p.norm_sq := by
  have h' : p.dat0 * p.dat0 + p.dat1 * p.dat1 + p.dat2 * p.dat2 + p.dat3 * p.dat3 ≠ 0 := h
  constructor
  · ext <;> simp only [reciprocal, mul, norm_sq] <;> field_simp <;> ring
  · ext <;> simp only [reciprocal, conjugate, div_scalar] <;> ring

/-- C4 at `p = (5,6,7,8)`, `q = (1,2,3,4)` over `ℚ`. -/
theorem div_mul_divisor_witness :
    (⟨1, 2, 3, 4⟩ : quaternion ℚ).norm_sq ≠ 0 ∧
      ((⟨5, 6, 7, 8⟩ : quaternion ℚ).div ⟨1, 2, 3, 4⟩).mul ⟨1, 2, 3, 4⟩ = ⟨5, 6, 7, 8⟩ :=
  ⟨by norm_num [norm_sq], div_mul_divisor ⟨5, 6, 7, 8⟩ ⟨1, 2, 3, 4⟩ (by norm_num [norm_sq])⟩

/-- C6 at `p = (1,2,3,4)` over `ℚ`. -/
theorem reciprocal_mul_self_witness :
    (⟨1, 2, 3, 4⟩ : quaternion ℚ).norm_sq ≠ 0 ∧
      (⟨1, 2, 3, 4⟩ : quaternion ℚ).reciprocal.mul ⟨1, 2, 3, 4⟩ = ⟨1, 0, 0, 0⟩ ∧
      (⟨1, 2, 3, 4⟩ : quaternion ℚ).reciprocal =
        (⟨1, 2, 3, 4⟩ : quaternion ℚ).conjugate.div_scalar
          (⟨1, 2, 3, 4⟩ : quaternion ℚ).norm_sq :=
  ⟨by norm_num [norm_sq], reciprocal_mul_self ⟨1, 2, 3, 4⟩ (by norm_num [norm_sq])⟩

end quaternion

/-- C7: for all quaternions `p` and `q`, `dist(p, q)` equals `dist(q, p)`, and
`dist(p, p)` equals `0`. -/
theorem dist_comm_and_self (p q : quaternion ℝ) : dist p q = dist q p ∧ dist p p = 0 := by
  constructor
  · simp only [dist]
    congr 1
    ring
  · simp [dist]

/-! ## The Newton update and the per-pixel loop -/

/-- C8: for every non-zero quaternion `q`, the update
`newton(q) = (2·q.cube() + 1) / (3·q.square())` equals the Newton step
`q − func(q) / (q.square()*3.0)`, which is `q − f(q)·f'(q)⁻¹` for `f(q) = q³ − 1`
and `f'(q) = 3q²` written with the general product and the reciprocal. -/
theorem newton_eq_newton_step {K : Type} [LinearOrderedField K] (q : quaternion K)
    (h : q ≠ quaternion.zero) :
    newton q = q.sub ((func q).div (q.square.mul_scalar 3)) ∧
      newton q = q.sub ((((q.mul q).mul q).sub_scalar 1).mul
        ((q.mul q).mul_scalar 3).reciprocal) := by
  have hN : q.norm_sq ≠ 0 := (quaternion.norm_sq_pos q h).ne.symm
  have hD : (q.square.mul_scalar 3).norm_sq ≠ 0 := by
    rw [quaternion.norm_sq_three_square]
    exact mul_ne_zero (by norm_num) (pow_ne_zero 2 hN)
  simp only [quaternion.square, quaternion.mul_scalar, quaternion.norm_sq] at hD
  have first : newton q = q.sub ((func q).div (q.square.mul_scalar 3)) := by
    ext <;>
      simp only [newton, func, quaternion.div, quaternion.sub, quaternion.cube,
        quaternion.square, quaternion.mul_scalar, quaternion.add_scalar,
        quaternion.sub_scalar, quaternion.norm_sq] <;>
      field_simp <;> ring
  refine ⟨first, ?_⟩
  rw [quaternion.mul_mul_self_eq_cube, quaternion.mul_self_eq_square,
    quaternion.mul_reciprocal_eq_div]
  exact first

/-- C8 at `q = (2,1,0,0)` over `ℚ`. -/
theorem newton_eq_newton_step_witness :
    (⟨2, 1, 0, 0⟩ : quaternion ℚ) ≠ quaternion.zero ∧
      newton (⟨2, 1, 0, 0⟩ : quaternion ℚ) =
        (⟨2, 1, 0, 0⟩ : quaternion ℚ).sub
          ((func ⟨2, 1, 0, 0⟩).div ((⟨2, 1, 0, 0⟩ : quaternion ℚ).square.mul_scalar 3)) ∧
      newton (⟨2, 1, 0, 0⟩ : quaternion ℚ) =
        (⟨2, 1, 0, 0⟩ : quaternion ℚ).sub
          (((((⟨2, 1, 0, 0⟩ : quaternion ℚ).mul ⟨2, 1, 0, 0⟩).mul ⟨2, 1, 0, 0⟩).sub_scalar 1).mul
            (((⟨2, 1, 0, 0⟩ : quaternion ℚ).mul ⟨2, 1, 0, 0⟩).mul_scalar 3).reciprocal) :=
  ⟨by simp [quaternion.zero],
    newton_eq_newton_step ⟨2, 1, 0, 0⟩ (by simp [quaternion.zero])⟩

/-- Unfolding of the loop when the counter is below `max_iters` and the residual
is below the threshold: the loop breaks. -/
theorem newton_loop_from_break {K : Type} [LinearOrderedField K] (q p : quaternion K)
    (i : Nat) (hi : i < setup.max_iters) (hp : p.norm_sq < eps_sq) :
    newton_loop_from q p i = ⟨q, p, i⟩ := by
  rw [newton_loop_from, if_pos hi, if_pos hp]

/-- Unfolding of the loop when the counter is below `max_iters` and the residual
is not below the threshold: one update, then the loop again. -/
theorem newton_loop_from_step {K : Type} [LinearOrderedField K] (q p : quaternion K)
    (i : Nat) (hi : i < setup.max_iters) (hp : ¬ p.norm_sq < eps_sq) :
    newton_loop_from q p i = newton_loop_from (newton q) (func (newton q)) (i + 1) := by
  rw [newton_loop_from, if_pos hi, if_neg hp]

/-- Unfolding of the loop when the counter has reached `max_iters`. -/
theorem newton_loop_from_done {K : Type} [LinearOrderedField K] (q p : quaternion K)
    (i : Nat) (hi : ¬ i < setup.max_iters) :
    newton_loop_from q p i = ⟨q, p, i⟩ := by
  rw [newton_loop_from, if_neg hi]

/-- The loop entered at counter `i` with `p = func(q)` and `n` iterations left
performs some number `k ≤ n` of updates: it exits with counter `i + k`, with
`q` updated `k` times and `p` its residual; the residuals before the exit were
not below the threshold, and the last one is unless the counter is exhausted. -/
theorem newton_loop_from_spec {K : Type} [LinearOrderedField K] (n : Nat) :
    ∀ (q : quaternion K) (i : Nat), i + n = setup.max_iters →
      ∃ k, (newton_loop_from q (func q) i).iters = i + k ∧ i + k ≤ setup.max_iters ∧
        (newton_loop_from q (func q) i).q = newton^[k] q ∧
        (newton_loop_from q (func q) i).p = func (newton^[k] q) ∧
        (∀ j, j < k → eps_sq ≤ (func (newton^[j] q)).norm_sq) ∧
        (i + k < setup.max_iters → (func (newton^[k] q)).norm_sq < eps_sq) := by
  induction n with
  | zero =>
    intro q i h
    have hi : ¬ i < setup.max_iters := by omega
    rw [newton_loop_from_done q _ i hi]
    exact ⟨0, rfl, by omega, rfl, rfl, fun j hj => absurd hj (Nat.not_lt_zero j),
      fun hlt => absurd hlt hi⟩
  | succ n ih =>
    intro q i h
    have hi : i < setup.max_iters := by omega
    by_cases hp : (func q).norm_sq < eps_sq
    · rw [newton_loop_from_break q _ i hi hp]
      exact ⟨0, rfl, by omega, rfl, rfl, fun j hj => absurd hj (Nat.not_lt_zero j),
        fun _ => hp⟩
    · rw [newton_loop_from_step q _ i hi hp]
      obtain ⟨k, h1, h2, h3, h4, h5, h6⟩ := ih (newton q) (i + 1) (by omega)
      refine ⟨k + 1, ?_, ?_, ?_, ?_, ?_, ?_⟩
      · rw [h1]; omega
      · omega
      · rw [h3, Function.iterate_succ_apply]
      · rw [h4, Function.iterate_succ_apply]
      · intro j hj
        cases j with
        | zero => exact not_lt.mp hp
        | succ j =>
          rw [Function.iterate_succ_apply]
          exact h5 j (by omega)
      · intro hlt
        rw [Function.iterate_succ_apply]
        exact h6 (by omega)

/-- C9: for every starting quaternion the per-pixel Newton loop terminates after
at most `max_iters = 32` updates (the exit state is the starting point updated
`iters ≤ 32` times), and at exit either the residual `p` satisfies
`norm_sq(p) < 1e-16` or the counter equals 32; in both cases `p` equals `func(q)`
for the final `q`. -/
theorem newton_loop_terminates {K : Type} [LinearOrderedField K] (q0 : quaternion K) :
    (newton_loop q0).iters ≤ 32 ∧
      (newton_loop q0).q = newton^[(newton_loop q0).iters] q0 ∧
      ((newton_loop q0).p.norm_sq < 1e-16 ∨ (newton_loop q0).iters = 32) ∧
      (newton_loop q0).p = func (newton_loop q0).q := by
  obtain ⟨k, h1, h2, h3, h4, _, h6⟩ := newton_loop_from_spec setup.max_iters q0 0 (by simp)
  simp only [zero_add] at h1 h2 h6
  unfold newton_loop
  rw [h1, h3, h4]
  refine ⟨h2, rfl, ?_, rfl⟩
  rcases Nat.lt_or_ge k setup.max_iters with hlt | hge
  · exact Or.inl (h6 hlt)
  · exact Or.inr (le_antisymm h2 hge)

/-- C10: for every starting quaternion `q0`, if the Newton loop exits with
iteration count `n`, then the final `q` is `newton` applied exactly `n` times to
`q0`, every earlier iterate `newton^j(q0)` with `j < n` has residual squared norm
`≥ 1e-16`, and if `n < 32` then the final residual has squared norm `< 1e-16`. -/
theorem newton_loop_least_index {K : Type} [LinearOrderedField K] (q0 : quaternion K)
    (n : Nat) (hn : (newton_loop q0).iters = n) :
    (newton_loop q0).q = newton^[n] q0 ∧
      (∀ j, j < n → (1e-16 : K) ≤ (func (newton^[j] q0)).norm_sq) ∧
      (n < 32 → (func (newton_loop q0).q).norm_sq < 1e-16) := by
  obtain ⟨k, h1, _, h3, _, h5, h6⟩ := newton_loop_from_spec setup.max_iters q0 0 (by simp)
  simp only [zero_add] at h1 h6
  unfold newton_loop at hn ⊢
  have hk : k = n := by rw [← h1, hn]
  subst hk
  rw [h3]
  exact ⟨rfl, h5, h6⟩

/-- The loop started at `(100001/100000, 0, 0, 0)` over `ℚ` exits after one update. -/
theorem newton_loop_iters_near_one :
    (newton_loop (⟨100001 / 100000, 0, 0, 0⟩ : quaternion ℚ)).iters = 1 := by
  unfold newton_loop
  rw [newton_loop_from_step _ _ 0 (by decide)
      (by norm_num [func, quaternion.cube, quaternion.sub_scalar, quaternion.norm_sq, eps_sq]),
    newton_loop_from_break _ _ 1 (by decide)
      (by norm_num [func, newton, quaternion.cube, quaternion.square, quaternion.div,
        quaternion.mul_scalar, quaternion.add_scalar, quaternion.sub_scalar,
        quaternion.norm_sq, eps_sq])]

/-- C10 at `q0 = (100001/100000, 0, 0, 0)` over `ℚ`, where the loop exits with
`n = 1`. -/
theorem newton_loop_least_index_witness :
    (newton_loop (⟨100001 / 100000, 0, 0, 0⟩ : quaternion ℚ)).iters = 1 ∧
      (newton_loop (⟨100001 / 100000, 0, 0, 0⟩ : quaternion ℚ)).q =
        newton^[1] ⟨100001 / 100000, 0, 0, 0⟩ ∧
      (∀ j, j < 1 → (1e-16 : ℚ) ≤
        (func (newton^[j] (⟨100001 / 100000, 0, 0, 0⟩ : quaternion ℚ))).norm_sq) ∧
      (1 < 32 → (func (newton_loop
        (⟨100001 / 100000, 0, 0, 0⟩ : quaternion ℚ)).q).norm_sq < 1e-16) :=
  ⟨newton_loop_iters_near_one,
    newton_loop_least_index ⟨100001 / 100000, 0, 0, 0⟩ 1 newton_loop_iters_near_one⟩

/-! ## Colours and the colour of a pixel -/

/-- The cast to `unsigned char` of a value in `[n, n + 1)` with `n ≤ 255` is `n`. -/
theorem to_uchar_eq {K : Type} [LinearOrderedField K] [FloorRing K] (x : K) (n : Nat)
    (hn : n < 256) (h1 : (n : K) ≤ x) (h2 : x < (n : K) + 1) : to_uchar x = n := by
  have h0 : (0 : K) ≤ x := le_trans (Nat.cast_nonneg n) h1
  have hf : ⌊x⌋ = (n : ℤ) := by
    rw [Int.floor_eq_iff]
    constructor
    · simpa using h1
    · simpa using h2
  unfold to_uchar
  rw [if_pos h0, hf]
  omega

/-- White scaled by `0.5` is the gray `(127,127,127)`. -/
theorem white_mul_half {K : Type} [LinearOrderedField K] [FloorRing K] :
    colors.white.mul_scalar (0.5 : K) = ⟨127, 127, 127⟩ := by
  have h : to_uchar ((0.5 : K) * ((255 : Nat) : K)) = 127 := by
    apply to_uchar_eq _ 127 (by norm_num) <;> norm_num
  simp only [color.mul_scalar, colors.white]
  rw [h]

/-- The colour choice on a state whose residual is below the threshold and whose
point is within `eps` of `(1,0,0,0)`. -/
theorem pixel_color_near_one (q p : quaternion ℝ) (hp : p.norm_sq ≤ eps_sq)
    (hd : dist q ⟨1, 0, 0, 0⟩ < eps) :
    pixel_color q p = colors.white.mul_scalar (0.5 : ℝ) := by
  unfold pixel_color
  simp only []
  rw [if_neg (not_lt.mpr hp), if_pos hd]

/-- The colour choice on a state whose residual is below the threshold and whose
point is not within `eps` of `(1,0,0,0)`. -/
theorem pixel_color_far (q p : quaternion ℝ) (hp : p.norm_sq ≤ eps_sq)
    (hd : eps ≤ dist q ⟨1, 0, 0, 0⟩) :
    pixel_color q p =
      sphere_color (atan2 q.dat3 (Real.sqrt (q.dat1 * q.dat1 + q.dat2 * q.dat2)))
        (atan2 q.dat2 q.dat1) := by
  unfold pixel_color
  simp only []
  rw [if_neg (not_lt.mpr hp), if_neg (not_lt.mpr hd)]

/-- The residual at `(1,0,0,0)` is the origin. -/
theorem func_one {K : Type} [Field K] : func (⟨1, 0, 0, 0⟩ : quaternion K) = ⟨0, 0, 0, 0⟩ := by
  ext <;> simp [func, quaternion.cube, quaternion.sub_scalar]

/-- C11: starting the Newton loop at `q = (1,0,0,0)` performs 0 updates (the
residual is already below `1e-16`), leaves `q` unchanged, and the resulting pixel
colour is the half-intensity white `(127,127,127)`. -/
theorem pixel_at_one :
    (func (⟨1, 0, 0, 0⟩ : quaternion ℝ)).norm_sq < 1e-16 ∧
      (newton_loop (⟨1, 0, 0, 0⟩ : quaternion ℝ)).iters = 0 ∧
      (newton_loop (⟨1, 0, 0, 0⟩ : quaternion ℝ)).q = ⟨1, 0, 0, 0⟩ ∧
      pixel ⟨1, 0, 0, 0⟩ = colors.white.mul_scalar (0.5 : ℝ) ∧
      pixel ⟨1, 0, 0, 0⟩ = ⟨127, 127, 127⟩ := by
  have hp : (func (⟨1, 0, 0, 0⟩ : quaternion ℝ)).norm_sq < eps_sq := by
    rw [func_one]
    norm_num [quaternion.norm_sq, eps_sq]
  have hl : newton_loop (⟨1, 0, 0, 0⟩ : quaternion ℝ) = ⟨⟨1, 0, 0, 0⟩, func ⟨1, 0, 0, 0⟩, 0⟩ := by
    unfold newton_loop
    exact newton_loop_from_break _ _ 0 (by decide) hp
  have hc : pixel ⟨1, 0, 0, 0⟩ = colors.white.mul_scalar (0.5 : ℝ) := by
    unfold pixel
    rw [hl]
    exact pixel_color_near_one _ _ hp.le (by norm_num [dist, eps])
  refine ⟨hp, ?_, ?_, hc, ?_⟩
  · rw [hl]
  · rw [hl]
  · rw [hc, white_mul_half]

/-- C14: for every converged final quaternion `q` (`norm_sq(q³ − 1) < 1e-16`)
with `dist(q, (1,0,0,0)) < 1e-8`, the pixel colour is white scaled by `0.5`,
which is the gray `(127,127,127)`. -/
theorem pixel_color_converged_near_one (q : quaternion ℝ)
    (hp : (func q).norm_sq < 1e-16) (hd : dist q ⟨1, 0, 0, 0⟩ < 1e-8) :
    pixel_color q (func q) = colors.white.mul_scalar (0.5 : ℝ) ∧
      colors.white.mul_scalar (0.5 : ℝ) = ⟨127, 127, 127⟩ :=
  ⟨pixel_color_near_one q (func q) (le_of_lt hp) hd, white_mul_half⟩

/-- C14 at `q = (1,0,0,0)`. -/
theorem pixel_color_converged_near_one_witness :
    (func (⟨1, 0, 0, 0⟩ : quaternion ℝ)).norm_sq < 1e-16 ∧
      dist (⟨1, 0, 0, 0⟩ : quaternion ℝ) ⟨1, 0, 0, 0⟩ < 1e-8 ∧
      pixel_color ⟨1, 0, 0, 0⟩ (func ⟨1, 0, 0, 0⟩) = colors.white.mul_scalar (0.5 : ℝ) ∧
      colors.white.mul_scalar (0.5 : ℝ) = ⟨127, 127, 127⟩ :=
  ⟨by rw [func_one]; norm_num [quaternion.norm_sq], by norm_num [dist],
    pixel_color_converged_near_one ⟨1, 0, 0, 0⟩
      (by rw [func_one]; norm_num [quaternion.norm_sq]) (by norm_num [dist])⟩

/-- C15: for every converged final quaternion `q = (a,x,y,z)` at distance
`≥ 1e-8` from `(1,0,0,0)`, the pixel colour is `sphere_color(φ, θ)` with
`ρ = sqrt(x² + y²)`, `φ = atan2(z, ρ)` and `θ = atan2(y, x)`; the colour does not
depend on the real component: any other such final quaternion with the same
`x, y, z` gets the same colour. -/
theorem pixel_color_converged_far (q : quaternion ℝ)
    (hp : (func q).norm_sq < 1e-16) (hd : (1e-8 : ℝ) ≤ dist q ⟨1, 0, 0, 0⟩) :
    pixel_color q (func q) =
        sphere_color (atan2 q.dat3 (Real.sqrt (q.dat1 * q.dat1 + q.dat2 * q.dat2)))
          (atan2 q.dat2 q.dat1) ∧
      ∀ a : ℝ, (func ⟨a, q.dat1, q.dat2, q.dat3⟩).norm_sq < 1e-16 →
        (1e-8 : ℝ) ≤ dist ⟨a, q.dat1, q.dat2, q.dat3⟩ ⟨1, 0, 0, 0⟩ →
        pixel_color ⟨a, q.dat1, q.dat2, q.dat3⟩ (func ⟨a, q.dat1, q.dat2, q.dat3⟩) =
          pixel_color q (func q) := by
  have h := pixel_color_far q (func q) (le_of_lt hp) hd
  refine ⟨h, ?_⟩
  intro a ha hda
  rw [h, pixel_color_far _ _ (le_of_lt ha) hda]

/-- The residual at the root `(-1/2, 1/2, 1/2, 1/2)` is the origin. -/
theorem func_root_half : func (⟨-1 / 2, 1 / 2, 1 / 2, 1 / 2⟩ : quaternion ℝ) = ⟨0, 0, 0, 0⟩ := by
  ext <;> norm_num [func, quaternion.cube, quaternion.sub_scalar]

/-- The root `(-1/2, 1/2, 1/2, 1/2)` is farther than `1e-8` from `(1,0,0,0)`. -/
theorem dist_root_half :
    (1e-8 : ℝ) ≤ dist (⟨-1 / 2, 1 / 2, 1 / 2, 1 / 2⟩ : quaternion ℝ) ⟨1, 0, 0, 0⟩ := by
  unfold dist
  apply Real.le_sqrt_of_sq_le
  norm_num

/-- C15 at the root `q = (-1/2, 1/2, 1/2, 1/2)`. -/
theorem pixel_color_converged_far_witness :
    (func (⟨-1 / 2, 1 / 2, 1 / 2, 1 / 2⟩ : quaternion ℝ)).norm_sq < 1e-16 ∧
      (1e-8 : ℝ) ≤ dist (⟨-1 / 2, 1 / 2, 1 / 2, 1 / 2⟩ : quaternion ℝ) ⟨1, 0, 0, 0⟩ ∧
      pixel_color ⟨-1 / 2, 1 / 2, 1 / 2, 1 / 2⟩ (func ⟨-1 / 2, 1 / 2, 1 / 2, 1 / 2⟩) =
        sphere_color (atan2 (1 / 2) (Real.sqrt (1 / 2 * (1 / 2) + 1 / 2 * (1 / 2))))
          (atan2 (1 / 2) (1 / 2)) :=
  ⟨by rw [func_root_half]; norm_num [quaternion.norm_sq], dist_root_half,
    (pixel_color_converged_far ⟨-1 / 2, 1 / 2, 1 / 2, 1 / 2⟩
      (by rw [func_root_half]; norm_num [quaternion.norm_sq]) dist_root_half).1⟩

/-! ### The hue wheel -/

/-- The constant `TWO_PI` is twice `ONE_PI`. -/
theorem ONE_PI_add_ONE_PI {K : Type} [LinearOrderedField K] : (ONE_PI : K) + ONE_PI = TWO_PI := by
  norm_num [ONE_PI, TWO_PI]

/-- The constant `TWO_PI` is positive. -/
theorem TWO_PI_pos {K : Type} [LinearOrderedField K] : (0 : K) < TWO_PI := by
  norm_num [TWO_PI]

/-- The scale factor of the hue index is positive. -/
theorem gradient_factor_pos {K : Type} [LinearOrderedField K] : (0 : K) < gradient_factor :=
  div_pos (by norm_num) TWO_PI_pos

/-- The hue index of `-ONE_PI` is `0`. -/
theorem color_wheel_val_neg_ONE_PI {K : Type} [LinearOrderedField K] : color_wheel_val (-ONE_PI : K) = 0 := by
  simp [color_wheel_val]

/-- The hue index of `ONE_PI` is `1535`. -/
theorem color_wheel_val_ONE_PI {K : Type} [LinearOrderedField K] : color_wheel_val (ONE_PI : K) = 1535 := by
  unfold color_wheel_val gradient_factor
  rw [ONE_PI_add_ONE_PI]
  exact mul_div_cancel₀ _ TWO_PI_pos.ne.symm

/-- Every hue index is the index of an angle. -/
theorem color_wheel_val_of_index {K : Type} [LinearOrderedField K] (v : K) :
    color_wheel_val (v / gradient_factor - ONE_PI) = v := by
  unfold color_wheel_val
  rw [sub_add_cancel]
  exact div_mul_cancel₀ _ gradient_factor_pos.ne.symm

/-- The function `clamp` returns a value in `[0, 255]`. -/
theorem clamp_range {K : Type} [LinearOrderedField K] (x : K) : 0 ≤ clamp x ∧ clamp x ≤ 255 := by
  unfold clamp
  split_ifs with h1 h2
  · exact ⟨le_refl 0, by norm_num⟩
  · exact ⟨by norm_num, le_refl 255⟩
  · exact ⟨not_lt.mp h1, not_lt.mp h2⟩

section wheel

variable {K : Type} [LinearOrderedField K] [FloorRing K]

/-- Below index `0` the hue is blue. -/
theorem color_wheel_lt_zero (angle : K) (h : color_wheel_val angle < 0) :
    color_wheel angle = colors.blue := by
  unfold color_wheel
  simp only []
  rw [if_pos h]

/-- First ramp, blue to cyan: indices in `[0, 256)`. -/
theorem color_wheel_seg1 (angle : K) (h0 : 0 ≤ color_wheel_val angle)
    (h1 : color_wheel_val angle < 256) :
    color_wheel angle = ⟨0, to_uchar (color_wheel_val angle), 255⟩ := by
  unfold color_wheel
  simp only []
  rw [if_neg (not_lt.mpr h0), if_pos h1]

/-- Second ramp, cyan to green: indices in `[256, 512)`. -/
theorem color_wheel_seg2 (angle : K) (h0 : 256 ≤ color_wheel_val angle)
    (h1 : color_wheel_val angle < 512) :
    color_wheel angle = ⟨0, 255, to_uchar (256 - (color_wheel_val angle - 256))⟩ := by
  unfold color_wheel
  simp only []
  rw [if_neg (not_lt.mpr (by linarith)), if_neg (not_lt.mpr h0), if_pos h1]

/-- Third ramp, green to yellow: indices in `[512, 768)`. -/
theorem color_wheel_seg3 (angle : K) (h0 : 512 ≤ color_wheel_val angle)
    (h1 : color_wheel_val angle < 768) :
    color_wheel angle = ⟨to_uchar (color_wheel_val angle - 512), 255, 0⟩ := by
  unfold color_wheel
  simp only []
  rw [if_neg (not_lt.mpr (by linarith)), if_neg (not_lt.mpr (by linarith)),
    if_neg (not_lt.mpr h0), if_pos h1]

/-- Fourth ramp, yellow to red: indices in `[768, 1024)`. -/
theorem color_wheel_seg4 (angle : K) (h0 : 768 ≤ color_wheel_val angle)
    (h1 : color_wheel_val angle < 1024) :
    color_wheel angle = ⟨255, to_uchar (256 - (color_wheel_val angle - 768)), 0⟩ := by
  unfold color_wheel
  simp only []
  rw [if_neg (not_lt.mpr (by linarith)), if_neg (not_lt.mpr (by linarith)),
    if_neg (not_lt.mpr (by linarith)), if_neg (not_lt.mpr h0), if_pos h1]

/-- Fifth ramp, red to magenta: indices in `[1024, 1280)`. -/
theorem color_wheel_seg5 (angle : K) (h0 : 1024 ≤ color_wheel_val angle)
    (h1 : color_wheel_val angle < 1280) :
    color_wheel angle = ⟨255, 0, to_uchar (color_wheel_val angle - 1024)⟩ := by
  unfold color_wheel
  simp only []
  rw [if_neg (not_lt.mpr (by linarith)), if_neg (not_lt.mpr (by linarith)),
    if_neg (not_lt.mpr (by linarith)), if_neg (not_lt.mpr (by linarith)),
    if_neg (not_lt.mpr h0), if_pos h1]

/-- Sixth ramp, magenta to blue: indices in `[1280, 1536)`. -/
theorem color_wheel_seg6 (angle : K) (h0 : 1280 ≤ color_wheel_val angle)
    (h1 : color_wheel_val angle < 1536) :
    color_wheel angle = ⟨to_uchar (256 - (color_wheel_val angle - 1280)), 0, 255⟩ := by
  unfold color_wheel
  simp only []
  rw [if_neg (not_lt.mpr (by linarith)), if_neg (not_lt.mpr (by linarith)),
    if_neg (not_lt.mpr (by linarith)), if_neg (not_lt.mpr (by linarith)),
    if_neg (not_lt.mpr (by linarith)), if_neg (not_lt.mpr h0), if_pos h1]

/-- From index `1536` on the hue is blue. -/
theorem color_wheel_ge_1536 (angle : K) (h : 1536 ≤ color_wheel_val angle) :
    color_wheel angle = colors.blue := by
  unfold color_wheel
  simp only []
  rw [if_neg (not_lt.mpr (by linarith)), if_neg (not_lt.mpr (by linarith)),
    if_neg (not_lt.mpr (by linarith)), if_neg (not_lt.mpr (by linarith)),
    if_neg (not_lt.mpr (by linarith)), if_neg (not_lt.mpr (by linarith)),
    if_neg (not_lt.mpr h)]

/-- The cast of `256` does not fit in eight bits: read modulo 256 it is `0`. -/
theorem to_uchar_256 : to_uchar (256 : K) = 0 := by
  have hf : ⌊(256 : K)⌋ = 256 := by
    rw [Int.floor_eq_iff]
    constructor <;> norm_num
  unfold to_uchar
  rw [if_pos (by norm_num), hf]
  rfl

/-- The cast of a value in `[0, 256)` is its integer part. -/
theorem to_uchar_of_lt_256 (x : K) (h0 : 0 ≤ x) (h1 : x < 256) : to_uchar x = ⌊x⌋₊ := by
  apply to_uchar_eq x ⌊x⌋₊
  · exact (Nat.floor_lt h0).mpr (by simpa using h1)
  · exact Nat.floor_le h0
  · exact Nat.lt_floor_add_one x

/-- The hue at `-ONE_PI`: the start of the first ramp, blue. -/
theorem color_wheel_at_neg_ONE_PI : color_wheel (-ONE_PI : K) = ⟨0, 0, 255⟩ := by
  rw [color_wheel_seg1 _ (by rw [color_wheel_val_neg_ONE_PI])
    (by rw [color_wheel_val_neg_ONE_PI]; norm_num), color_wheel_val_neg_ONE_PI,
    to_uchar_eq 0 0 (by norm_num) (by norm_num) (by norm_num)]

/-- The hue at `ONE_PI`: index `1535` on the sixth ramp, one step of red left. -/
theorem color_wheel_at_ONE_PI : color_wheel (ONE_PI : K) = ⟨1, 0, 255⟩ := by
  rw [color_wheel_seg6 _ (by rw [color_wheel_val_ONE_PI]; norm_num)
    (by rw [color_wheel_val_ONE_PI]; norm_num), color_wheel_val_ONE_PI,
    to_uchar_eq _ 1 (by norm_num) (by norm_num) (by norm_num)]

/-- C16, the code at the failing inputs: at the hue indices `256`, `768` and
`1280`, where a descending ramp starts, the channel `256.0 - val` is the cast of
`256` and the colour differs by 255 in one channel from the colour half an index
step below the boundary. -/
theorem color_wheel_jump_at_ramp_start :
    color_wheel ((255.5 : K) / gradient_factor - ONE_PI) = ⟨0, 255, 255⟩ ∧
      color_wheel ((256 : K) / gradient_factor - ONE_PI) = ⟨0, 255, 0⟩ ∧
      color_wheel ((767.5 : K) / gradient_factor - ONE_PI) = ⟨255, 255, 0⟩ ∧
      color_wheel ((768 : K) / gradient_factor - ONE_PI) = ⟨255, 0, 0⟩ ∧
      color_wheel ((1279.5 : K) / gradient_factor - ONE_PI) = ⟨255, 0, 255⟩ ∧
      color_wheel ((1280 : K) / gradient_factor - ONE_PI) = ⟨0, 0, 255⟩ := by
  refine ⟨?_, ?_, ?_, ?_, ?_, ?_⟩
  · rw [color_wheel_seg1 _ (by rw [color_wheel_val_of_index]; norm_num)
      (by rw [color_wheel_val_of_index]; norm_num), color_wheel_val_of_index,
      to_uchar_eq _ 255 (by norm_num) (by norm_num) (by norm_num)]
  · rw [color_wheel_seg2 _ (by rw [color_wheel_val_of_index])
      (by rw [color_wheel_val_of_index]; norm_num), color_wheel_val_of_index]
    norm_num [to_uchar_256]
  · rw [color_wheel_seg3 _ (by rw [color_wheel_val_of_index]; norm_num)
      (by rw [color_wheel_val_of_index]; norm_num), color_wheel_val_of_index,
      to_uchar_eq _ 255 (by norm_num) (by norm_num) (by norm_num)]
  · rw [color_wheel_seg4 _ (by rw [color_wheel_val_of_index])
      (by rw [color_wheel_val_of_index]; norm_num), color_wheel_val_of_index]
    norm_num [to_uchar_256]
  · rw [color_wheel_seg5 _ (by rw [color_wheel_val_of_index]; norm_num)
      (by rw [color_wheel_val_of_index]; norm_num), color_wheel_val_of_index,
      to_uchar_eq _ 255 (by norm_num) (by norm_num) (by norm_num)]
  · rw [color_wheel_seg6 _ (by rw [color_wheel_val_of_index])
      (by rw [color_wheel_val_of_index]; norm_num), color_wheel_val_of_index]
    norm_num [to_uchar_256]

/-- Away from the first index of a descending ramp the hue is continuous across
the ramp boundaries: strictly above `256`, `768` and `1280` the colour is the one
just below the boundary, and at `512` and `1024` the colours on the two sides
differ by at most one step in one channel. -/
theorem color_wheel_boundaries_off_ramp_start (a1 a2 : K) :
    (255 ≤ color_wheel_val a1 → color_wheel_val a1 < 256 →
      256 < color_wheel_val a2 → color_wheel_val a2 < 257 →
      color_wheel a1 = ⟨0, 255, 255⟩ ∧ color_wheel a2 = ⟨0, 255, 255⟩) ∧
    (511 ≤ color_wheel_val a1 → color_wheel_val a1 < 512 →
      512 ≤ color_wheel_val a2 → color_wheel_val a2 < 513 →
      (color_wheel a1 = ⟨0, 255, 0⟩ ∨ color_wheel a1 = ⟨0, 255, 1⟩) ∧
        color_wheel a2 = ⟨0, 255, 0⟩) ∧
    (767 ≤ color_wheel_val a1 → color_wheel_val a1 < 768 →
      768 < color_wheel_val a2 → color_wheel_val a2 < 769 →
      color_wheel a1 = ⟨255, 255, 0⟩ ∧ color_wheel a2 = ⟨255, 255, 0⟩) ∧
    (1023 ≤ color_wheel_val a1 → color_wheel_val a1 < 1024 →
      1024 ≤ color_wheel_val a2 → color_wheel_val a2 < 1025 →
      (color_wheel a1 = ⟨255, 0, 0⟩ ∨ color_wheel a1 = ⟨255, 1, 0⟩) ∧
        color_wheel a2 = ⟨255, 0, 0⟩) ∧
    (1279 ≤ color_wheel_val a1 → color_wheel_val a1 < 1280 →
      1280 < color_wheel_val a2 → color_wheel_val a2 < 1281 →
      color_wheel a1 = ⟨255, 0, 255⟩ ∧ color_wheel a2 = ⟨255, 0, 255⟩) := by
  refine ⟨?_, ?_, ?_, ?_, ?_⟩
  · intro h1 h2 h3 h4
    constructor
    · rw [color_wheel_seg1 _ (by linarith) h2,
        to_uchar_eq _ 255 (by norm_num) (by norm_num; linarith) (by norm_num; linarith)]
    · rw [color_wheel_seg2 _ h3.le (by linarith),
        to_uchar_eq _ 255 (by norm_num) (by norm_num; linarith) (by norm_num; linarith)]
  · intro h1 h2 h3 h4
    constructor
    · rw [color_wheel_seg2 _ (by linarith) h2]
      rcases eq_or_lt_of_le h1 with h | h
      · right
        rw [to_uchar_eq _ 1 (by norm_num) (by norm_num; linarith) (by norm_num; linarith)]
      · left
        rw [to_uchar_eq _ 0 (by norm_num) (by norm_num; linarith) (by norm_num; linarith)]
    · rw [color_wheel_seg3 _ h3 (by linarith),
        to_uchar_eq _ 0 (by norm_num) (by norm_num; linarith) (by norm_num; linarith)]
  · intro h1 h2 h3 h4
    constructor
    · rw [color_wheel_seg3 _ (by linarith) h2,
        to_uchar_eq _ 255 (by norm_num) (by norm_num; linarith) (by norm_num; linarith)]
    · rw [color_wheel_seg4 _ h3.le (by linarith),
        to_uchar_eq _ 255 (by norm_num) (by norm_num; linarith) (by norm_num; linarith)]
  · intro h1 h2 h3 h4
    constructor
    · rw [color_wheel_seg4 _ (by linarith) h2]
      rcases eq_or_lt_of_le h1 with h | h
      · right
        rw [to_uchar_eq _ 1 (by norm_num) (by norm_num; linarith) (by norm_num; linarith)]
      · left
        rw [to_uchar_eq _ 0 (by norm_num) (by norm_num; linarith) (by norm_num; linarith)]
    · rw [color_wheel_seg5 _ h3 (by linarith),
        to_uchar_eq _ 0 (by norm_num) (by norm_num; linarith) (by norm_num; linarith)]
  · intro h1 h2 h3 h4
    constructor
    · rw [color_wheel_seg5 _ (by linarith) h2,
        to_uchar_eq _ 255 (by norm_num) (by norm_num; linarith) (by norm_num; linarith)]
    · rw [color_wheel_seg6 _ h3.le (by linarith),
        to_uchar_eq _ 255 (by norm_num) (by norm_num; linarith) (by norm_num; linarith)]

/-- C17, as stated, fails: the hue at `+ONE_PI` is not `(0,0,255)`. -/
theorem color_wheel_seam_not_blue :
    ¬ (color_wheel (-ONE_PI : ℚ) = ⟨0, 0, 255⟩ ∧ color_wheel (ONE_PI : ℚ) = ⟨0, 0, 255⟩) := by
  rw [color_wheel_at_ONE_PI, color_wheel_at_neg_ONE_PI]
  decide

/-- C17, amended: at the wrap-around seam the hue is exactly blue on the `-ONE_PI`
side, `color_wheel(-ONE_PI) = (0,0,255)`, and one step of red away from blue on
the `+ONE_PI` side, `color_wheel(+ONE_PI) = (1,0,255)`. -/
theorem color_wheel_seam :
    color_wheel (-ONE_PI : K) = ⟨0, 0, 255⟩ ∧ color_wheel (ONE_PI : K) = ⟨1, 0, 255⟩ :=
  ⟨color_wheel_at_neg_ONE_PI, color_wheel_at_ONE_PI⟩

/-- In exact arithmetic every angle outside the normalized range, `angle < -ONE_PI`
or `angle > +ONE_PI`, has the hue blue `(0,0,255)`.  This is a fact of the exact
model only: in binary64 the sum `angle + ONE_PI` can round down to the `double` of
`TWO_PI`, see `color_wheel_binary64_not_blue_above_ONE_PI`. -/
theorem color_wheel_outside_range (angle : K) (h : angle < -ONE_PI ∨ ONE_PI < angle) :
    color_wheel angle = ⟨0, 0, 255⟩ := by
  rcases h with h | h
  · apply color_wheel_lt_zero
    unfold color_wheel_val
    exact mul_neg_of_neg_of_pos (by linarith) gradient_factor_pos
  · have hv : 1535 < color_wheel_val angle := by
      rw [← color_wheel_val_ONE_PI]
      unfold color_wheel_val
      exact mul_lt_mul_of_pos_right (by linarith) gradient_factor_pos
    rcases lt_or_le (color_wheel_val angle) 1536 with h6 | h6
    · rw [color_wheel_seg6 _ (by linarith) h6,
        to_uchar_eq _ 0 (by norm_num) (by norm_num; linarith) (by norm_num; linarith)]
    · exact color_wheel_ge_1536 angle h6

/-- The exact hue at the angles `-4` and `4` over `ℚ`. -/
theorem color_wheel_outside_range_witness :
    ((-4 : ℚ) < -ONE_PI ∨ ONE_PI < (-4 : ℚ)) ∧ color_wheel (-4 : ℚ) = ⟨0, 0, 255⟩ ∧
      ((4 : ℚ) < -ONE_PI ∨ ONE_PI < (4 : ℚ)) ∧ color_wheel (4 : ℚ) = ⟨0, 0, 255⟩ :=
  ⟨Or.inl (by norm_num [ONE_PI]),
    color_wheel_outside_range (-4) (Or.inl (by norm_num [ONE_PI])),
    Or.inr (by norm_num [ONE_PI]),
    color_wheel_outside_range 4 (Or.inr (by norm_num [ONE_PI]))⟩

/-- C19, as stated, fails: at `ONE_PI` the hue index is `1535`, not the value
`1536` of `(angle + π)·1536/(2π)`, and 256 index steps are not a sixth of the
circle of angles. -/
theorem color_wheel_val_not_1536 :
    color_wheel_val (ONE_PI : ℚ) ≠ (ONE_PI + ONE_PI) * 1536 / TWO_PI ∧
      (256 : ℚ) / gradient_factor ≠ TWO_PI / 6 := by
  constructor
  · rw [color_wheel_val_ONE_PI]
    norm_num [ONE_PI, TWO_PI]
  · norm_num [gradient_factor, TWO_PI]

/-- C19, amended: `color_wheel` scales the angle range `[-ONE_PI, ONE_PI]`
linearly onto the hue index range `[0, 1535]`, index
`= (angle + ONE_PI)·1535/TWO_PI`; the six ramps blue→cyan→green→yellow→red→
magenta→blue start at the indices 0, 256, 512, 768, 1024, 1280 and are 256 index
steps wide, the sixth being cut at the last index 1535 of the angle range; 256
index steps are `256/1535` of the full circle `TWO_PI` of angles. -/
theorem color_wheel_index_scaling :
    (∀ angle : K, color_wheel_val angle = (angle + ONE_PI) * 1535 / TWO_PI) ∧
      (∀ angle : K, -ONE_PI ≤ angle → angle ≤ ONE_PI →
        0 ≤ color_wheel_val angle ∧ color_wheel_val angle ≤ 1535) ∧
      (∀ v : K, 0 ≤ v → v ≤ 1535 →
        ∃ angle : K, -ONE_PI ≤ angle ∧ angle ≤ ONE_PI ∧ color_wheel_val angle = v) ∧
      (∀ a b : K, color_wheel_val b - color_wheel_val a = 256 ↔
        b - a = 256 / 1535 * TWO_PI) ∧
      (∀ angle : K,
        (0 ≤ color_wheel_val angle → color_wheel_val angle < 256 →
          color_wheel angle = ⟨0, to_uchar (color_wheel_val angle), 255⟩) ∧
        (256 ≤ color_wheel_val angle → color_wheel_val angle < 512 →
          color_wheel angle = ⟨0, 255, to_uchar (256 - (color_wheel_val angle - 256))⟩) ∧
        (512 ≤ color_wheel_val angle → color_wheel_val angle < 768 →
          color_wheel angle = ⟨to_uchar (color_wheel_val angle - 512), 255, 0⟩) ∧
        (768 ≤ color_wheel_val angle → color_wheel_val angle < 1024 →
          color_wheel angle = ⟨255, to_uchar (256 - (color_wheel_val angle - 768)), 0⟩) ∧
        (1024 ≤ color_wheel_val angle → color_wheel_val angle < 1280 →
          color_wheel angle = ⟨255, 0, to_uchar (color_wheel_val angle - 1024)⟩) ∧
        (1280 ≤ color_wheel_val angle → color_wheel_val angle ≤ 1535 →
          color_wheel angle = ⟨to_uchar (256 - (color_wheel_val angle - 1280)), 0, 255⟩)) := by
  have hg : (gradient_factor : K) ≠ 0 := gradient_factor_pos.ne.symm
  have hT : (TWO_PI : K) ≠ 0 := TWO_PI_pos.ne.symm
  refine ⟨?_, ?_, ?_, ?_, ?_⟩
  · intro angle
    unfold color_wheel_val gradient_factor
    rw [mul_div_assoc]
  · intro angle h1 h2
    constructor
    · unfold color_wheel_val
      exact mul_nonneg (by linarith) gradient_factor_pos.le
    · rw [← color_wheel_val_ONE_PI]
      unfold color_wheel_val
      exact mul_le_mul_of_nonneg_right (by linarith) gradient_factor_pos.le
  · intro v h0 h1
    refine ⟨v / gradient_factor - ONE_PI, ?_, ?_, color_wheel_val_of_index v⟩
    · have : 0 ≤ v / gradient_factor := div_nonneg h0 gradient_factor_pos.le
      linarith
    · have h2 : v / gradient_factor ≤ TWO_PI := by
        rw [div_le_iff₀ gradient_factor_pos]
        have e : (TWO_PI : K) * gradient_factor = 1535 := by
          unfold gradient_factor
          exact mul_div_cancel₀ _ hT
        rw [e]
        exact h1
      have h3 := ONE_PI_add_ONE_PI (K := K)
      linarith
  · intro a b
    have e1 : color_wheel_val b - color_wheel_val a = (b - a) * gradient_factor := by
      unfold color_wheel_val
      ring
    have e2 : (256 : K) / 1535 * TWO_PI = 256 / gradient_factor := by
      unfold gradient_factor
      field_simp
    rw [e1, e2, eq_div_iff hg]
  · intro angle
    exact ⟨color_wheel_seg1 angle, color_wheel_seg2 angle, color_wheel_seg3 angle,
      color_wheel_seg4 angle, color_wheel_seg5 angle,
      fun h0 h1 => color_wheel_seg6 angle h0 (by linarith)⟩

/-- The cast of a clamped value is its integer part. -/
theorem to_uchar_clamp (x : K) : to_uchar (clamp x) = ⌊clamp x⌋₊ :=
  to_uchar_of_lt_256 _ (clamp_range x).1 (lt_of_le_of_lt (clamp_range x).2 (by norm_num))

/-- C20: for every `φ` and `θ`, each channel of `sphere_color(φ, θ)` is the
integer part of `clamp(ch + 255·s)`, where `ch` is the same channel of
`color_wheel(θ)` and `s = (φ + HALF_PI)/HALF_PI − 1`; and for `φ` in
`[-HALF_PI, HALF_PI]` the value `s` lies in `[-1, 1]`. -/
theorem sphere_color_channels (phi theta : K) :
    (sphere_color phi theta).red =
        ⌊clamp (((color_wheel theta).red : K) + 255 * ((phi + HALF_PI) / HALF_PI - 1))⌋₊ ∧
      (sphere_color phi theta).green =
        ⌊clamp (((color_wheel theta).green : K) + 255 * ((phi + HALF_PI) / HALF_PI - 1))⌋₊ ∧
      (sphere_color phi theta).blue =
        ⌊clamp (((color_wheel theta).blue : K) + 255 * ((phi + HALF_PI) / HALF_PI - 1))⌋₊ ∧
      (-HALF_PI ≤ phi → phi ≤ HALF_PI →
        -1 ≤ (phi + HALF_PI) / HALF_PI - 1 ∧ (phi + HALF_PI) / HALF_PI - 1 ≤ 1) := by
  refine ⟨?_, ?_, ?_, ?_⟩
  · simp only [sphere_color, saturate]
    exact to_uchar_clamp _
  · simp only [sphere_color, saturate]
    exact to_uchar_clamp _
  · simp only [sphere_color, saturate]
    exact to_uchar_clamp _
  · intro h1 h2
    have hH : (0 : K) < HALF_PI := by norm_num [HALF_PI]
    have e : (phi + HALF_PI) / HALF_PI - 1 = phi / HALF_PI := by
      field_simp
    rw [e]
    constructor
    · rw [le_div_iff₀ hH]
      linarith
    · rw [div_le_iff₀ hH]
      linarith

/-- C20 at `φ = 0`, `θ = 1` over `ℚ`: the shade is `s = 0`. -/
theorem sphere_color_channels_witness :
    (-HALF_PI ≤ (0 : ℚ)) ∧ ((0 : ℚ) ≤ HALF_PI) ∧
      (sphere_color (0 : ℚ) 1).red =
        ⌊clamp (((color_wheel (1 : ℚ)).red : ℚ) + 255 * ((0 + HALF_PI) / HALF_PI - 1))⌋₊ ∧
      (-1 ≤ ((0 : ℚ) + HALF_PI) / HALF_PI - 1 ∧ ((0 : ℚ) + HALF_PI) / HALF_PI - 1 ≤ 1) :=
  ⟨by norm_num [HALF_PI], by norm_num [HALF_PI], (sphere_color_channels (0 : ℚ) 1).1,
    (sphere_color_channels (0 : ℚ) 1).2.2.2 (by norm_num [HALF_PI]) (by norm_num [HALF_PI])⟩

end wheel

/-! ### The boundary of the convergence test -/

/-- A point `(t,0,0,0)` of the real axis with `t ≥ 1` and `t³ = 1 + 1e-8`: its
residual is `(1e-8,0,0,0)`, of squared norm exactly `eps_sq`, which the loop test
`p.norm_sq() < eps_sq` does not accept as converged; the colour choice gives the
gray of the root `(1,0,0,0)`. -/
theorem pixel_color_at_threshold (t : ℝ) (ht1 : 1 ≤ t) (ht3 : t ^ 3 = 1 + 1e-8) :
    (func (⟨t, 0, 0, 0⟩ : quaternion ℝ)).norm_sq = eps_sq ∧
      pixel_color ⟨t, 0, 0, 0⟩ (func ⟨t, 0, 0, 0⟩) = ⟨127, 127, 127⟩ := by
  have hf : func (⟨t, 0, 0, 0⟩ : quaternion ℝ) = ⟨1e-8, 0, 0, 0⟩ := by
    ext
    · simp only [func, quaternion.cube, quaternion.sub_scalar]
      linear_combination ht3
    all_goals simp [func, quaternion.cube, quaternion.sub_scalar]
  have hn : (func (⟨t, 0, 0, 0⟩ : quaternion ℝ)).norm_sq = eps_sq := by
    rw [hf]
    norm_num [quaternion.norm_sq, eps_sq]
  have hlt : t - 1 < 1e-8 := by
    nlinarith [mul_nonneg (sub_nonneg.mpr ht1) (sub_nonneg.mpr ht1),
      mul_nonneg (sub_nonneg.mpr ht1) (le_trans zero_le_one ht1)]
  have hd : dist (⟨t, 0, 0, 0⟩ : quaternion ℝ) ⟨1, 0, 0, 0⟩ < eps := by
    unfold dist eps
    rw [Real.sqrt_lt' (by norm_num)]
    have h0 : 0 ≤ t - 1 := sub_nonneg.mpr ht1
    norm_num
    nlinarith
  refine ⟨hn, ?_⟩
  rw [pixel_color_near_one _ _ hn.le hd, white_mul_half]

/-- The real cube root of `1 + 1e-8`. -/
theorem cube_root_threshold :
    (1 : ℝ) ≤ (1 + 1e-8 : ℝ) ^ ((1 : ℝ) / 3) ∧
      ((1 + 1e-8 : ℝ) ^ ((1 : ℝ) / 3)) ^ 3 = 1 + 1e-8 := by
  constructor
  · exact Real.one_le_rpow (by norm_num) (by norm_num)
  · rw [← Real.rpow_natCast, ← Real.rpow_mul (by norm_num)]
    norm_num

/-- C13, the code at the failing input: on the exit state with
`q = ((1 + 1e-8)^(1/3), 0, 0, 0)` and `p = func(q)`, the residual has squared
norm exactly `1e-16`, so it is not below the threshold of the loop test, and the
pixel is the gray `(127,127,127)`, not black. -/
theorem pixel_color_not_black_at_threshold :
    (func (⟨(1 + 1e-8 : ℝ) ^ ((1 : ℝ) / 3), 0, 0, 0⟩ : quaternion ℝ)).norm_sq = 1e-16 ∧
      ¬ (func (⟨(1 + 1e-8 : ℝ) ^ ((1 : ℝ) / 3), 0, 0, 0⟩ : quaternion ℝ)).norm_sq < 1e-16 ∧
      pixel_color ⟨(1 + 1e-8 : ℝ) ^ ((1 : ℝ) / 3), 0, 0, 0⟩
        (func ⟨(1 + 1e-8 : ℝ) ^ ((1 : ℝ) / 3), 0, 0, 0⟩) = ⟨127, 127, 127⟩ ∧
      pixel_color ⟨(1 + 1e-8 : ℝ) ^ ((1 : ℝ) / 3), 0, 0, 0⟩
        (func ⟨(1 + 1e-8 : ℝ) ^ ((1 : ℝ) / 3), 0, 0, 0⟩) ≠ colors.black := by
  obtain ⟨h1, h3⟩ := cube_root_threshold
  obtain ⟨hn, hc⟩ := pixel_color_at_threshold _ h1 h3
  refine ⟨hn, ?_, hc, ?_⟩
  · rw [hn]
    exact lt_irrefl _
  · rw [hc]
    decide

/-- On the real axis the Newton update is `a ↦ (2a³ + 1)/(3a²)`. -/
theorem newton_real_axis (a : ℝ) (ha : a ≠ 0) :
    newton (⟨a, 0, 0, 0⟩ : quaternion ℝ) = ⟨(2 * a ^ 3 + 1) / (3 * a ^ 2), 0, 0, 0⟩ := by
  ext
  · simp only [newton, quaternion.div, quaternion.cube, quaternion.square,
      quaternion.mul_scalar, quaternion.add_scalar, quaternion.norm_sq]
    field_simp
    ring
  all_goals simp [newton, quaternion.div, quaternion.cube, quaternion.square,
      quaternion.mul_scalar, quaternion.add_scalar]

/-- Every `t ≥ 1` is the Newton update of some `a ≥ t` of the real axis. -/
theorem newton_real_axis_preimage (t : ℝ) (ht : 1 ≤ t) :
    ∃ a : ℝ, t ≤ a ∧ (2 * a ^ 3 + 1) / (3 * a ^ 2) = t := by
  have hc : ContinuousOn (fun a : ℝ => (2 * a ^ 3 + 1) / (3 * a ^ 2))
      (Set.Icc 1 (3 * t / 2)) := by
    apply ContinuousOn.div
    · fun_prop
    · fun_prop
    · intro x hx
      have : 0 < x := lt_of_lt_of_le zero_lt_one hx.1
      positivity
  have hmem : t ∈ Set.Icc ((fun a : ℝ => (2 * a ^ 3 + 1) / (3 * a ^ 2)) 1)
      ((fun a : ℝ => (2 * a ^ 3 + 1) / (3 * a ^ 2)) (3 * t / 2)) := by
    constructor
    · norm_num
      exact ht
    · have h0 : (0 : ℝ) < 3 * (3 * t / 2) ^ 2 := by positivity
      simp only []
      rw [le_div_iff₀ h0]
      nlinarith [pow_pos (lt_of_lt_of_le zero_lt_one ht) 3]
  obtain ⟨a, ha, hfa⟩ := intermediate_value_Icc (by linarith) hc hmem
  refine ⟨a, ?_, hfa⟩
  have ha1 : 1 ≤ a := ha.1
  have h0 : (0 : ℝ) < 3 * a ^ 2 := by positivity
  have h3 : 1 ≤ a ^ 3 := one_le_pow₀ ha1
  simp only [] at hfa
  rw [← hfa, div_le_iff₀ h0]
  nlinarith

/-- For every `n` and `t ≥ 1` there is a point `(a,0,0,0)` that `n` Newton
updates carry to `(t,0,0,0)` through points `(b,0,0,0)` with `b ≥ t`. -/
theorem newton_real_axis_chain (n : Nat) :
    ∀ t : ℝ, 1 ≤ t → ∃ a : ℝ, t ≤ a ∧
      newton^[n] (⟨a, 0, 0, 0⟩ : quaternion ℝ) = ⟨t, 0, 0, 0⟩ ∧
      ∀ j, j ≤ n → ∃ b : ℝ, t ≤ b ∧ newton^[j] (⟨a, 0, 0, 0⟩ : quaternion ℝ) = ⟨b, 0, 0, 0⟩ := by
  induction n with
  | zero =>
    intro t _
    refine ⟨t, le_refl t, rfl, ?_⟩
    intro j hj
    have : j = 0 := by omega
    subst this
    exact ⟨t, le_refl t, rfl⟩
  | succ n ih =>
    intro t ht
    obtain ⟨a', ha', hn, hall⟩ := ih t ht
    obtain ⟨a, ha, hfa⟩ := newton_real_axis_preimage a' (le_trans ht ha')
    have hne : a ≠ 0 := by
      have : 0 < a := by linarith
      exact this.ne.symm
    have hstep : newton (⟨a, 0, 0, 0⟩ : quaternion ℝ) = ⟨a', 0, 0, 0⟩ := by
      rw [newton_real_axis a hne, hfa]
    refine ⟨a, le_trans ha' ha, ?_, ?_⟩
    · rw [Function.iterate_succ_apply, hstep, hn]
    · intro j hj
      cases j with
      | zero => exact ⟨a, le_trans ha' ha, rfl⟩
      | succ j =>
        rw [Function.iterate_succ_apply, hstep]
        exact hall j (by omega)

/-- On the real axis at or beyond a point with `t³ = 1 + 1e-8`, `t ≥ 1`, the
residual is not below the threshold of the loop test. -/
theorem residual_real_axis_ge (t b : ℝ) (ht1 : 1 ≤ t) (ht3 : t ^ 3 = 1 + 1e-8) (hb : t ≤ b) :
    ¬ (func (⟨b, 0, 0, 0⟩ : quaternion ℝ)).norm_sq < eps_sq := by
  have h3 : t ^ 3 ≤ b ^ 3 := pow_le_pow_left₀ (by linarith) hb 3
  have h8 : (1e-8 : ℝ) ≤ b ^ 3 - 1 := by linarith
  rw [not_lt]
  simp only [func, quaternion.cube, quaternion.sub_scalar, quaternion.norm_sq, eps_sq]
  have e : (b * b - 3 * (0 * 0 + 0 * 0 + 0 * 0)) * b - 1 = b ^ 3 - 1 := by ring
  rw [e]
  norm_num
  nlinarith

/-- The convergence test and the black test disagree on a reachable exit state:
there is a starting point from which the loop uses all 32 iterations, never
finds a residual below the threshold, exits with squared norm exactly `1e-16`,
and the pixel is the gray `(127,127,127)`. -/
theorem pixel_gray_after_exhausted_loop :
    ∃ q0 : quaternion ℝ, (newton_loop q0).iters = 32 ∧
      (∀ j, j ≤ 32 → ¬ (func (newton^[j] q0)).norm_sq < 1e-16) ∧
      (newton_loop q0).p.norm_sq = 1e-16 ∧ pixel q0 = ⟨127, 127, 127⟩ := by
  obtain ⟨ht1, ht3⟩ := cube_root_threshold
  obtain ⟨a, _, hn, hall⟩ := newton_real_axis_chain 32 _ ht1
  have hres : ∀ j, j ≤ 32 →
      ¬ (func (newton^[j] (⟨a, 0, 0, 0⟩ : quaternion ℝ))).norm_sq < eps_sq := by
    intro j hj
    obtain ⟨b, hb, hjb⟩ := hall j hj
    rw [hjb]
    exact residual_real_axis_ge _ b ht1 ht3 hb
  obtain ⟨k, h1, h2, h3, h4, _, h6⟩ :=
    newton_loop_from_spec setup.max_iters (⟨a, 0, 0, 0⟩ : quaternion ℝ) 0 (by simp)
  simp only [zero_add] at h1 h2 h6
  have hk : k = 32 := by
    rcases Nat.lt_or_ge k setup.max_iters with hlt | hge
    · exact absurd (h6 hlt) (hres k h2)
    · exact le_antisymm h2 hge
  subst hk
  have hq : (newton_loop (⟨a, 0, 0, 0⟩ : quaternion ℝ)).q =
      ⟨(1 + 1e-8 : ℝ) ^ ((1 : ℝ) / 3), 0, 0, 0⟩ := by
    unfold newton_loop
    rw [h3, hn]
  have hp : (newton_loop (⟨a, 0, 0, 0⟩ : quaternion ℝ)).p =
      func ⟨(1 + 1e-8 : ℝ) ^ ((1 : ℝ) / 3), 0, 0, 0⟩ := by
    unfold newton_loop
    rw [h4, hn]
  obtain ⟨hnorm, hcol⟩ := pixel_color_at_threshold _ ht1 ht3
  refine ⟨⟨a, 0, 0, 0⟩, h1, hres, ?_, ?_⟩
  · rw [hp]
    exact hnorm
  · unfold pixel
    rw [hq, hp]
    exact hcol

/-! ## In-place operations and further algebra -/

namespace quaternion

/-- C25: quaternion multiplication is non-commutative: `p = (0,1,0,0)` and
`q = (0,0,1,0)` give `p*q = (0,0,0,1)` and `q*p = (0,0,0,-1)`, so there are
quaternions with `p*q ≠ q*p`. -/
theorem mul_not_comm {K : Type} [LinearOrderedField K] :
    mul (⟨0, 1, 0, 0⟩ : quaternion K) ⟨0, 0, 1, 0⟩ = ⟨0, 0, 0, 1⟩ ∧
      mul (⟨0, 0, 1, 0⟩ : quaternion K) ⟨0, 1, 0, 0⟩ = ⟨0, 0, 0, -1⟩ ∧
      ∃ p q : quaternion K, p.mul q ≠ q.mul p := by
  have h1 : mul (⟨0, 1, 0, 0⟩ : quaternion K) ⟨0, 0, 1, 0⟩ = ⟨0, 0, 0, 1⟩ := by
    ext <;> simp [mul]
  have h2 : mul (⟨0, 0, 1, 0⟩ : quaternion K) ⟨0, 1, 0, 0⟩ = ⟨0, 0, 0, -1⟩ := by
    ext <;> simp [mul]
  refine ⟨h1, h2, ⟨0, 1, 0, 0⟩, ⟨0, 0, 1, 0⟩, ?_⟩
  rw [h1, h2]
  intro h
  have h3 : (1 : K) = -1 := congrArg quaternion.dat3 h
  linarith

/-- C26: quaternion multiplication is associative: `(p*q)*r` equals `p*(q*r)`. -/
theorem mul_assoc_exact {K : Type} [CommRing K] (p q r : quaternion K) :
    (p.mul q).mul r = p.mul (q.mul r) := by
  ext <;> simp only [mul] <;> ring

/-- The squared norm is non-negative. -/
theorem norm_sq_nonneg {K : Type} [LinearOrderedField K] (q : quaternion K) :
    0 ≤ q.norm_sq := by
  unfold norm_sq
  nlinarith [mul_self_nonneg q.dat0, mul_self_nonneg q.dat1, mul_self_nonneg q.dat2,
    mul_self_nonneg q.dat3]

/-- A quaternion of norm 1 is returned unchanged by `normalize`. -/
theorem normalize_of_norm_one (q : quaternion ℝ) (h : q.norm = 1) : q.normalize = q := by
  ext <;> simp [normalize, h]

/-- The squared norm of `normalize` is 1 when the norm is not zero. -/
theorem norm_sq_normalize (q : quaternion ℝ) (h : q.norm ≠ 0) : q.normalize.norm_sq = 1 := by
  have hsq : q.norm * q.norm = q.norm_sq := Real.mul_self_sqrt (norm_sq_nonneg q)
  have e : q.normalize.norm_sq = q.norm_sq * (1 / q.norm) ^ 2 := by
    simp only [normalize, norm_sq]
    ring
  rw [e, ← hsq]
  field_simp
  ring

/-- C27: for every quaternion `q` with non-zero norm, `q.normalize()` equals `q`
divided by the scalar `q.norm()` and has squared norm exactly 1; normalizing an
already normalized quaternion returns it unchanged. -/
theorem normalize_spec (q : quaternion ℝ) (h : q.norm ≠ 0) :
    q.normalize = q.div_scalar q.norm ∧ q.normalize.norm_sq = 1 ∧
      q.normalize.normalize = q.normalize ∧ (q.norm = 1 → q.normalize = q) := by
  refine ⟨rfl, norm_sq_normalize q h, ?_, normalize_of_norm_one q⟩
  apply normalize_of_norm_one
  unfold norm
  rw [norm_sq_normalize q h, Real.sqrt_one]

/-- C27 at `q = (3,0,4,0)`, of norm 5. -/
theorem normalize_spec_witness :
    (⟨3, 0, 4, 0⟩ : quaternion ℝ).norm ≠ 0 ∧
      (⟨3, 0, 4, 0⟩ : quaternion ℝ).normalize =
        (⟨3, 0, 4, 0⟩ : quaternion ℝ).div_scalar (⟨3, 0, 4, 0⟩ : quaternion ℝ).norm ∧
      (⟨3, 0, 4, 0⟩ : quaternion ℝ).normalize.norm_sq = 1 :=
  have h : (⟨3, 0, 4, 0⟩ : quaternion ℝ).norm ≠ 0 := by
    have e : (⟨3, 0, 4, 0⟩ : quaternion ℝ).norm = 5 := by
      unfold norm
      rw [show (⟨3, 0, 4, 0⟩ : quaternion ℝ).norm_sq = 5 ^ 2 by norm_num [norm_sq]]
      exact Real.sqrt_sq (by norm_num)
    rw [e]
    norm_num
  ⟨h, (normalize_spec ⟨3, 0, 4, 0⟩ h).1, (normalize_spec ⟨3, 0, 4, 0⟩ h).2.1⟩

end quaternion

/-- C28: `(1,0,0,0)` is the only root of `f(q) = q³ − 1` on the real axis: for
every `q = (a,0,0,0)`, `func(q) = (0,0,0,0)` if and only if `a = 1`. -/
theorem func_real_axis_root_iff {K : Type} [LinearOrderedField K] (a : K) :
    func (⟨a, 0, 0, 0⟩ : quaternion K) = ⟨0, 0, 0, 0⟩ ↔ a = 1 := by
  constructor
  · intro h
    have h0 : (a * a - 3 * (0 * 0 + 0 * 0 + 0 * 0)) * a - 1 = 0 :=
      congrArg quaternion.dat0 h
    have h1 : (a - 1) * (a * a + a + 1) = 0 := by linear_combination h0
    rcases mul_eq_zero.mp h1 with h2 | h2
    · linarith
    · nlinarith [mul_self_nonneg (a + 1), mul_self_nonneg a]
  · intro h
    subst h
    exact func_one

/-! ## Latitude shading -/

/-- The function `clamp` is monotone. -/
theorem clamp_mono {K : Type} [LinearOrderedField K] (x y : K) (h : x ≤ y) :
    clamp x ≤ clamp y := by
  unfold clamp
  split_ifs <;> linarith

/-- Above `255` the function `clamp` returns `255`. -/
theorem clamp_of_ge {K : Type} [LinearOrderedField K] (x : K) (h : 255 ≤ x) :
    clamp x = 255 := by
  unfold clamp
  split_ifs <;> linarith

/-- Below `0` the function `clamp` returns `0`. -/
theorem clamp_of_le {K : Type} [LinearOrderedField K] (x : K) (h : x ≤ 0) :
    clamp x = 0 := by
  unfold clamp
  split_ifs <;> linarith

/-- On `[0, 255]` the function `clamp` is the identity. -/
theorem clamp_of_mem {K : Type} [LinearOrderedField K] (x : K) (h0 : 0 ≤ x) (h1 : x ≤ 255) :
    clamp x = x := by
  unfold clamp
  rw [if_neg (not_lt.mpr h0), if_neg (not_lt.mpr h1)]

section shading

variable {K : Type} [LinearOrderedField K] [FloorRing K]

/-- A cast to `unsigned char` is at most `255`. -/
theorem to_uchar_le (x : K) : to_uchar x ≤ 255 := by
  unfold to_uchar
  omega

/-- The cast of an integer in `0..255` is that integer. -/
theorem to_uchar_natCast (n : Nat) (h : n ≤ 255) : to_uchar (n : K) = n :=
  to_uchar_eq _ n (by omega) (le_refl _) (by linarith)

/-- Every channel of a hue of `color_wheel` is at most `255`. -/
theorem color_wheel_in_range (angle : K) :
    (color_wheel angle).red ≤ 255 ∧ (color_wheel angle).green ≤ 255 ∧
      (color_wheel angle).blue ≤ 255 := by
  unfold color_wheel
  simp only []
  split_ifs <;> simp [colors.blue, to_uchar_le]

/-- The channels of `saturate` are monotone in the shade. -/
theorem saturate_mono (c : color) (s1 s2 : K) (h : s1 ≤ s2) :
    (saturate c s1).red ≤ (saturate c s2).red ∧
      (saturate c s1).green ≤ (saturate c s2).green ∧
      (saturate c s1).blue ≤ (saturate c s2).blue := by
  simp only [saturate, to_uchar_clamp]
  refine ⟨?_, ?_, ?_⟩ <;>
    exact Nat.floor_mono (clamp_mono _ _ (by linarith))

/-- The shade `0` leaves a colour with channels in `0..255` unchanged. -/
theorem saturate_zero (c : color) (hr : c.red ≤ 255) (hg : c.green ≤ 255)
    (hb : c.blue ≤ 255) : saturate c (0 : K) = c := by
  have e : ∀ n : Nat, n ≤ 255 → to_uchar (clamp ((n : K) + 255 * 0)) = n := by
    intro n hn
    have hn' : (n : K) ≤ 255 := by exact_mod_cast hn
    rw [mul_zero, add_zero, clamp_of_mem _ (Nat.cast_nonneg n) hn', to_uchar_natCast n hn]
  ext
  · exact e c.red hr
  · exact e c.green hg
  · exact e c.blue hb

/-- A shade `s ≥ 1` gives white. -/
theorem saturate_of_one_le (c : color) (s : K) (h : 1 ≤ s) : saturate c s = colors.white := by
  have e : ∀ n : Nat, to_uchar (clamp ((n : K) + 255 * s)) = 255 := by
    intro n
    have hn : (0 : K) ≤ n := Nat.cast_nonneg n
    rw [clamp_of_ge _ (by linarith)]
    exact to_uchar_eq _ 255 (by norm_num) (by norm_num) (by norm_num)
  ext
  · exact e c.red
  · exact e c.green
  · exact e c.blue

/-- A shade `s ≤ -1` gives black on a colour with channels in `0..255`. -/
theorem saturate_of_le_neg_one (c : color) (s : K) (h : s ≤ -1) (hr : c.red ≤ 255)
    (hg : c.green ≤ 255) (hb : c.blue ≤ 255) : saturate c s = colors.black := by
  have e : ∀ n : Nat, n ≤ 255 → to_uchar (clamp ((n : K) + 255 * s)) = 0 := by
    intro n hn
    have hn' : (n : K) ≤ 255 := by exact_mod_cast hn
    rw [clamp_of_le _ (by linarith)]
    exact to_uchar_eq _ 0 (by norm_num) (by norm_num) (by norm_num)
  ext
  · exact e c.red hr
  · exact e c.green hg
  · exact e c.blue hb

/-- C21: `saturate` is the identity at zero and monotone in its shade argument:
for every colour `c` (channels in `0..255`), `saturate(c, 0) = c`, and for all
`s1 ≤ s2` each channel of `saturate(c, s1)` is `≤` the same channel of
`saturate(c, s2)`; so a positive shade never darkens and a negative shade never
brightens any channel. -/
theorem saturate_identity_and_monotone (c : color) (s1 s2 : K) (hr : c.red ≤ 255)
    (hg : c.green ≤ 255) (hb : c.blue ≤ 255) (h : s1 ≤ s2) :
    saturate c (0 : K) = c ∧
      ((saturate c s1).red ≤ (saturate c s2).red ∧
        (saturate c s1).green ≤ (saturate c s2).green ∧
        (saturate c s1).blue ≤ (saturate c s2).blue) ∧
      (0 ≤ s2 → c.red ≤ (saturate c s2).red ∧ c.green ≤ (saturate c s2).green ∧
        c.blue ≤ (saturate c s2).blue) ∧
      (s1 ≤ 0 → (saturate c s1).red ≤ c.red ∧ (saturate c s1).green ≤ c.green ∧
        (saturate c s1).blue ≤ c.blue) := by
  have h0 := saturate_zero (K := K) c hr hg hb
  refine ⟨h0, saturate_mono c s1 s2 h, ?_, ?_⟩
  · intro hs
    have hm := saturate_mono c 0 s2 hs
    rw [h0] at hm
    exact hm
  · intro hs
    have hm := saturate_mono c s1 0 hs
    rw [h0] at hm
    exact hm

/-- C21 at `c = (10,200,255)`, `s1 = -1/2`, `s2 = 1/2` over `ℚ`. -/
theorem saturate_identity_and_monotone_witness :
    saturate ⟨10, 200, 255⟩ (0 : ℚ) = ⟨10, 200, 255⟩ ∧
      (saturate ⟨10, 200, 255⟩ (-1 / 2 : ℚ)).red ≤ (saturate ⟨10, 200, 255⟩ (1 / 2 : ℚ)).red :=
  ⟨(saturate_identity_and_monotone ⟨10, 200, 255⟩ (-1 / 2 : ℚ) (1 / 2) (by decide)
      (by decide) (by decide) (by norm_num)).1,
    (saturate_identity_and_monotone ⟨10, 200, 255⟩ (-1 / 2 : ℚ) (1 / 2) (by decide)
      (by decide) (by decide) (by norm_num)).2.1.1⟩

/-- C30: at the poles the latitude shading saturates completely: for every `θ`,
`sphere_color(HALF_PI, θ)` is pure white and `sphere_color(-HALF_PI, θ)` is pure
black; more generally `saturate(c, s)` is white for every `s ≥ 1` and black for
every `s ≤ -1`, for every colour `c` (channels in `0..255`). -/
theorem saturate_poles (theta : K) (c : color) (s : K) :
    sphere_color (HALF_PI : K) theta = ⟨255, 255, 255⟩ ∧
      sphere_color (-HALF_PI : K) theta = ⟨0, 0, 0⟩ ∧
      (1 ≤ s → saturate c s = ⟨255, 255, 255⟩) ∧
      (s ≤ -1 → c.red ≤ 255 → c.green ≤ 255 → c.blue ≤ 255 → saturate c s = ⟨0, 0, 0⟩) := by
  have hH : (HALF_PI : K) ≠ 0 := by norm_num [HALF_PI]
  refine ⟨?_, ?_, saturate_of_one_le c s, saturate_of_le_neg_one c s⟩
  · have e : ((HALF_PI : K) + HALF_PI) / HALF_PI - 1 = 1 := by
      field_simp
    simp only [sphere_color]
    rw [e]
    exact saturate_of_one_le _ 1 (le_refl 1)
  · have e : ((-HALF_PI : K) + HALF_PI) / HALF_PI - 1 = -1 := by
      rw [neg_add_cancel, zero_div, zero_sub]
    obtain ⟨hr, hg, hb⟩ := color_wheel_in_range theta
    simp only [sphere_color]
    rw [e]
    exact saturate_of_le_neg_one _ (-1) (le_refl _) hr hg hb

/-- C30 at `θ = 1`, `c = (10,200,255)` and the shades `2` and `-2` over `ℚ`. -/
theorem saturate_poles_witness :
    saturate ⟨10, 200, 255⟩ (2 : ℚ) = ⟨255, 255, 255⟩ ∧
      saturate ⟨10, 200, 255⟩ (-2 : ℚ) = ⟨0, 0, 0⟩ :=
  ⟨(saturate_poles (1 : ℚ) ⟨10, 200, 255⟩ 2).2.2.1 (by norm_num),
    (saturate_poles (1 : ℚ) ⟨10, 200, 255⟩ (-2)).2.2.2 (by norm_num) (by decide) (by decide)
      (by decide)⟩

end shading

/-! ## The sample plane -/

/-- The value of `pxfact` is a `double` (an integer below `2^53` over a power of
two) within half a unit in the last place, `2^-61`, of the literal
`5.8651026392961877E-03` of the source. -/
theorem pxfact_literal {K : Type} [LinearOrderedField K] :
    (setup.pxfact : K) = 6762002959570950 / 2 ^ 60 ∧
      |(setup.pxfact : K) - 5.8651026392961877e-3| < 1 / 2 ^ 61 := by
  constructor
  · norm_num [setup.pxfact]
  · rw [abs_lt]
    constructor <;> norm_num [setup.pxfact]

/-- The size of `pxfact`: 1023 steps stay within the window of width 6, and the
centre 3 of the window falls between 511 and 512 steps. -/
theorem pxfact_bounds {K : Type} [LinearOrderedField K] :
    (0 : K) < setup.pxfact ∧ (setup.pxfact : K) * 1023 ≤ 6 ∧
      (setup.pxfact : K) * 511 < 3 ∧ 3 < (setup.pxfact : K) * 512 := by
  refine ⟨?_, ?_, ?_, ?_⟩ <;> norm_num [setup.pxfact]

/-- The coordinate of a column is `-3 + pxfact * x`. -/
theorem a1_eq {K : Type} [Field K] (x : Nat) : (a1 x : K) = -3 + setup.pxfact * (x : K) := by
  norm_num [a1, setup.start]

/-- The coordinate of a row is the coordinate of the column of the same index. -/
theorem a0_eq_a1 {K : Type} [Field K] (k : Nat) : (a0 k : K) = a1 k := rfl

/-- Up to index 511 the coordinate is negative. -/
theorem a1_neg {K : Type} [LinearOrderedField K] (k : Nat) (h : k ≤ 511) : (a1 k : K) < 0 := by
  obtain ⟨h0, _, h511, _⟩ := pxfact_bounds (K := K)
  have hk : (k : K) ≤ 511 := by exact_mod_cast h
  have := mul_le_mul_of_nonneg_left hk h0.le
  rw [a1_eq]
  linarith

/-- From index 512 on the coordinate is positive. -/
theorem a1_pos {K : Type} [LinearOrderedField K] (k : Nat) (h : 512 ≤ k) : (0 : K) < a1 k := by
  obtain ⟨h0, _, _, h512⟩ := pxfact_bounds (K := K)
  have hk : (512 : K) ≤ k := by exact_mod_cast h
  have := mul_le_mul_of_nonneg_left hk h0.le
  rw [a1_eq]
  linarith

/-- No index has the coordinate `0`. -/
theorem a1_ne_zero {K : Type} [LinearOrderedField K] (k : Nat) : (a1 k : K) ≠ 0 := by
  rcases Nat.lt_or_ge k 512 with h | h
  · exact (a1_neg k (by omega)).ne
  · exact (a1_pos k h).ne.symm

/-- The starting point of a pixel, by components. -/
theorem pixel_start_eq {K : Type} [Field K] (cos_ang sin_ang : K) (x y : Nat) :
    pixel_start cos_ang sin_ang x y =
      ⟨a0 y * cos_ang, a0 y * sin_ang, a1 x * cos_ang, a1 x * sin_ang⟩ := by
  ext <;> simp [pixel_start, u0, u1, quaternion.add, quaternion.mul_scalar]

/-- C22: for every frame angle `θ`, the basis quaternions
`u0 = (cos θ, sin θ, 0, 0)` and `u1 = (0, 0, cos θ, sin θ)` both have squared norm
1 and are orthogonal as vectors of `R⁴` (their component-wise dot product is 0);
at frame 0 (`θ = 0`) they are `(1,0,0,0)` and `(0,0,1,0)`. -/
theorem frame_basis_orthonormal (θ : ℝ) :
    u0 (Real.cos θ) (Real.sin θ) = ⟨Real.cos θ, Real.sin θ, 0, 0⟩ ∧
      u1 (Real.cos θ) (Real.sin θ) = ⟨0, 0, Real.cos θ, Real.sin θ⟩ ∧
      (u0 (Real.cos θ) (Real.sin θ)).norm_sq = 1 ∧
      (u1 (Real.cos θ) (Real.sin θ)).norm_sq = 1 ∧
      (u0 (Real.cos θ) (Real.sin θ)).dat0 * (u1 (Real.cos θ) (Real.sin θ)).dat0 +
        (u0 (Real.cos θ) (Real.sin θ)).dat1 * (u1 (Real.cos θ) (Real.sin θ)).dat1 +
        (u0 (Real.cos θ) (Real.sin θ)).dat2 * (u1 (Real.cos θ) (Real.sin θ)).dat2 +
        (u0 (Real.cos θ) (Real.sin θ)).dat3 * (u1 (Real.cos θ) (Real.sin θ)).dat3 = 0 ∧
      u0 (Real.cos 0) (Real.sin 0) = ⟨1, 0, 0, 0⟩ ∧
      u1 (Real.cos 0) (Real.sin 0) = ⟨0, 0, 1, 0⟩ := by
  have h := Real.cos_sq_add_sin_sq θ
  refine ⟨rfl, rfl, ?_, ?_, ?_, ?_, ?_⟩
  · simp only [u0, quaternion.norm_sq]
    linarith
  · simp only [u1, quaternion.norm_sq]
    linarith
  · simp [u0, u1]
  · simp [u0]
  · simp [u1]

/-- C23, as stated, fails: no pixel of the grid has the sample coordinates
`a0 = a1 = 0`. -/
theorem no_pixel_at_centre :
    ¬ ∃ x y : Nat, x < setup.xsize ∧ y < setup.ysize ∧ (a0 y : ℚ) = 0 ∧ (a1 x : ℚ) = 0 := by
  rintro ⟨x, y, _, _, _, h⟩
  exact a1_ne_zero x h

/-- C23, amended: the 1024×1024 sample grid has no pixel with a sample coordinate
equal to `0`: the centre of the window lies between the indices 511 and 512,
whose coordinates are within `0.003` below and above `0`; at frame 0 the initial
quaternion of the pixel `(x, y)` is `(a0, 0, a1, 0)`, and it is never
`(0,0,0,0)`. -/
theorem centre_between_pixels :
    (∀ k : Nat, (a0 k : ℝ) ≠ 0 ∧ (a1 k : ℝ) ≠ 0) ∧
      (-0.003 < (a1 511 : ℝ) ∧ (a1 511 : ℝ) < 0 ∧ 0 < (a1 512 : ℝ) ∧ (a1 512 : ℝ) < 0.003) ∧
      (-0.003 < (a0 511 : ℝ) ∧ (a0 511 : ℝ) < 0 ∧ 0 < (a0 512 : ℝ) ∧ (a0 512 : ℝ) < 0.003) ∧
      ∀ x y : Nat,
        pixel_start (Real.cos 0) (Real.sin 0) x y = ⟨a0 y, 0, a1 x, 0⟩ ∧
        pixel_start (Real.cos 0) (Real.sin 0) x y ≠ ⟨0, 0, 0, 0⟩ := by
  have hb : -0.003 < (a1 511 : ℝ) ∧ (a1 511 : ℝ) < 0 ∧ 0 < (a1 512 : ℝ) ∧
      (a1 512 : ℝ) < 0.003 := by
    refine ⟨?_, a1_neg 511 (le_refl _), a1_pos 512 (le_refl _), ?_⟩ <;>
      norm_num [a1, setup.start, setup.pxfact]
  refine ⟨fun k => ⟨a1_ne_zero k, a1_ne_zero k⟩, hb, hb, ?_⟩
  intro x y
  have e : pixel_start (Real.cos 0) (Real.sin 0) x y = ⟨a0 y, 0, a1 x, 0⟩ := by
    rw [pixel_start_eq]
    simp
  refine ⟨e, ?_⟩
  rw [e]
  intro h
  exact a1_ne_zero (K := ℝ) y (congrArg quaternion.dat0 h)

/-- C29: for every pixel index `k` with `0 ≤ k < 1024`, the sample coordinate
`start + pxfact·k` (and likewise `start + pyfact·k`) lies in the window
`[-3.0, 3.0]`, with index 0 mapping to exactly `-3.0`. -/
theorem sample_coordinate_in_window {K : Type} [LinearOrderedField K] (k : Nat)
    (hk : k < 1024) :
    (setup.start : K) = -3 ∧ (setup.«end» : K) = 3 ∧
      a1 k = setup.start + setup.pxfact * (k : K) ∧
      a0 k = setup.start + setup.pyfact * (k : K) ∧
      (setup.start : K) ≤ a1 k ∧ (a1 k : K) ≤ setup.«end» ∧
      (setup.start : K) ≤ a0 k ∧ (a0 k : K) ≤ setup.«end» ∧
      (a1 0 : K) = -3 ∧ (a0 0 : K) = -3 := by
  obtain ⟨h0, h1023, _, _⟩ := pxfact_bounds (K := K)
  have hk' : (k : K) ≤ 1023 := by exact_mod_cast Nat.lt_succ_iff.mp hk
  have hk0 : (0 : K) ≤ k := Nat.cast_nonneg k
  have hmul := mul_le_mul_of_nonneg_left hk' h0.le
  have hpos := mul_nonneg h0.le hk0
  have hs : (setup.start : K) = -3 := by norm_num [setup.start]
  have he : (setup.«end» : K) = 3 := by norm_num [setup.«end»]
  have ha : (a1 k : K) = -3 + setup.pxfact * (k : K) := a1_eq k
  refine ⟨hs, he, rfl, rfl, ?_, ?_, ?_, ?_, ?_, ?_⟩
  · rw [hs, ha]; linarith
  · rw [he, ha]; linarith
  · rw [hs, a0_eq_a1, ha]; linarith
  · rw [he, a0_eq_a1, ha]; linarith
  · rw [a1_eq]; simp
  · rw [a0_eq_a1, a1_eq]; simp

/-- C29 at the last index `k = 1023` over `ℚ`. -/
theorem sample_coordinate_in_window_witness :
    1023 < 1024 ∧ (setup.start : ℚ) ≤ a1 1023 ∧ (a1 1023 : ℚ) ≤ setup.«end» :=
  ⟨by decide, (sample_coordinate_in_window (K := ℚ) 1023 (by decide)).2.2.2.2.1,
    (sample_coordinate_in_window (K := ℚ) 1023 (by decide)).2.2.2.2.2.1⟩

/-! ## Roots and fixed points of the Newton update -/

namespace quaternion

/-- Division followed by multiplication with the same divisor of non-zero squared
norm gives the dividend back. -/
theorem div_mul_same {K : Type} [Field K] (p d : quaternion K) (h : d.norm_sq ≠ 0) :
    (p.div d).mul d = p := by
  have h' : d.dat0 * d.dat0 + d.dat1 * d.dat1 + d.dat2 * d.dat2 + d.dat3 * d.dat3 ≠ 0 := h
  ext <;> simp only [div, mul, norm_sq] <;> field_simp <;> ring

/-- Multiplication followed by division with the same divisor of non-zero squared
norm gives the first factor back. -/
theorem mul_div_same {K : Type} [Field K] (p d : quaternion K) (h : d.norm_sq ≠ 0) :
    (p.mul d).div d = p := by
  have h' : d.dat0 * d.dat0 + d.dat1 * d.dat1 + d.dat2 * d.dat2 + d.dat3 * d.dat3 ≠ 0 := h
  ext <;> simp only [div, mul, norm_sq] <;> field_simp <;> ring

/-- The product `q * (3 q²)` is `3 q³`. -/
theorem mul_three_square {K : Type} [CommRing K] (q : quaternion K) :
    q.mul (q.square.mul_scalar 3) = q.cube.mul_scalar 3 := by
  ext <;> simp only [mul, square, cube, mul_scalar] <;> ring

/-- C36: the squared norm is multiplicative over the Hamilton product:
`(p*q).norm_sq() = p.norm_sq() · q.norm_sq()`; consequently
`q.square().norm_sq() = q.norm_sq()²` and `q.cube().norm_sq() = q.norm_sq()³`. -/
theorem norm_sq_mul {K : Type} [CommRing K] (p q : quaternion K) :
    (p.mul q).norm_sq = p.norm_sq * q.norm_sq ∧
      q.square.norm_sq = q.norm_sq ^ 2 ∧ q.cube.norm_sq = q.norm_sq ^ 3 := by
  refine ⟨?_, ?_, ?_⟩
  · simp only [mul, norm_sq]
    ring
  · simp only [square, norm_sq]
    ring
  · simp only [cube, norm_sq]
    ring

end quaternion

/-- C33: one Newton step never leaves the plane spanned by 1 and the imaginary
direction of its input: for every non-zero `q = (a,x,y,z)` there is a `c` such
that the imaginary part of `newton(q)` equals `c·(x,y,z)`; in particular a purely
real `q` is mapped to a purely real quaternion. -/
theorem newton_imaginary_direction {K : Type} [LinearOrderedField K] (q : quaternion K)
    (_h : q ≠ quaternion.zero) :
    (∃ c : K, (newton q).dat1 = c * q.dat1 ∧ (newton q).dat2 = c * q.dat2 ∧
      (newton q).dat3 = c * q.dat3) ∧
      (q.dat1 = 0 → q.dat2 = 0 → q.dat3 = 0 →
        (newton q).dat1 = 0 ∧ (newton q).dat2 = 0 ∧ (newton q).dat3 = 0) := by
  have hc : ∃ c : K, (newton q).dat1 = c * q.dat1 ∧ (newton q).dat2 = c * q.dat2 ∧
      (newton q).dat3 = c * q.dat3 := by
    refine ⟨(2 * (3 * (q.dat0 * q.dat0) - (q.dat1 * q.dat1 + q.dat2 * q.dat2 +
        q.dat3 * q.dat3)) * (3 * (q.dat0 * q.dat0 - q.dat1 * q.dat1 - q.dat2 * q.dat2 -
        q.dat3 * q.dat3)) - 6 * q.dat0 * (2 * ((q.dat0 * q.dat0 - 3 * (q.dat1 * q.dat1 +
        q.dat2 * q.dat2 + q.dat3 * q.dat3)) * q.dat0) + 1)) *
        (1 / (q.square.mul_scalar 3).norm_sq), ?_, ?_, ?_⟩ <;>
      simp only [newton, quaternion.div, quaternion.cube, quaternion.square,
        quaternion.mul_scalar, quaternion.add_scalar] <;>
      ring
  refine ⟨hc, ?_⟩
  intro h1 h2 h3
  obtain ⟨c, e1, e2, e3⟩ := hc
  rw [e1, e2, e3, h1, h2, h3]
  simp

/-- C33 at `q = (2,1,2,3)` over `ℚ`, where `newton(q) = (643/486, 161/243, 322/243,
161/81)` and `c = 161/243`. -/
theorem newton_imaginary_direction_witness :
    (⟨2, 1, 2, 3⟩ : quaternion ℚ) ≠ quaternion.zero ∧
      ∃ c : ℚ, (newton (⟨2, 1, 2, 3⟩ : quaternion ℚ)).dat1 = c * 1 ∧
        (newton (⟨2, 1, 2, 3⟩ : quaternion ℚ)).dat2 = c * 2 ∧
        (newton (⟨2, 1, 2, 3⟩ : quaternion ℚ)).dat3 = c * 3 :=
  ⟨by simp [quaternion.zero],
    (newton_imaginary_direction ⟨2, 1, 2, 3⟩ (by simp [quaternion.zero])).1⟩

/-- C34: the roots of `func` are exactly the real unit and a 2-sphere of non-real
roots: for every `q = (a,x,y,z)`, `func(q) = q.cube() − 1` equals `(0,0,0,0)` if
and only if `q = (1,0,0,0)` or (`a = −1/2` and `x² + y² + z² = 3/4`). -/
theorem func_root_iff {K : Type} [LinearOrderedField K] (q : quaternion K) :
    func q = ⟨0, 0, 0, 0⟩ ↔
      (q = ⟨1, 0, 0, 0⟩ ∨
        (q.dat0 = -1 / 2 ∧ q.dat1 * q.dat1 + q.dat2 * q.dat2 + q.dat3 * q.dat3 = 3 / 4)) := by
  obtain ⟨a, x, y, z⟩ := q
  constructor
  · intro h
    have e0 : (a * a - 3 * (x * x + y * y + z * z)) * a - 1 = 0 :=
      congrArg quaternion.dat0 h
    have e1 : (3 * (a * a) - (x * x + y * y + z * z)) * x = 0 := congrArg quaternion.dat1 h
    have e2 : (3 * (a * a) - (x * x + y * y + z * z)) * y = 0 := congrArg quaternion.dat2 h
    have e3 : (3 * (a * a) - (x * x + y * y + z * z)) * z = 0 := congrArg quaternion.dat3 h
    by_cases hf : 3 * (a * a) - (x * x + y * y + z * z) = 0
    · right
      have hv : x * x + y * y + z * z = 3 * (a * a) := by linarith
      rw [hv] at e0
      have h8 : (2 * a + 1) * (4 * (a * a) - 2 * a + 1) = 0 := by linear_combination -e0
      have ha : a = -1 / 2 := by
        rcases mul_eq_zero.mp h8 with h2 | h2
        · linarith
        · nlinarith [mul_self_nonneg (2 * a - 1), mul_self_nonneg a]
      refine ⟨ha, ?_⟩
      simp only []
      rw [hv, ha]
      norm_num
    · left
      have hx : x = 0 := (mul_eq_zero.mp e1).resolve_left hf
      have hy : y = 0 := (mul_eq_zero.mp e2).resolve_left hf
      have hz : z = 0 := (mul_eq_zero.mp e3).resolve_left hf
      subst hx hy hz
      have h1 : (a - 1) * (a * a + a + 1) = 0 := by linear_combination e0
      have ha : a = 1 := by
        rcases mul_eq_zero.mp h1 with h2 | h2
        · linarith
        · nlinarith [mul_self_nonneg (a + 1), mul_self_nonneg a]
      rw [ha]
  · rintro (h | ⟨ha, hv⟩)
    · rw [h]
      exact func_one
    · simp only [] at ha hv
      ext <;> simp only [func, quaternion.cube, quaternion.sub_scalar]
      · rw [hv, ha]
        norm_num
      · rw [hv, ha]
        norm_num
      · rw [hv, ha]
        norm_num
      · rw [hv, ha]
        norm_num

/-- C35: the fixed points of the Newton step are exactly the roots: for every
non-zero `q`, `newton(q) = q` if and only if `q.cube() = (1,0,0,0)`, that is,
`func(q) = (0,0,0,0)`. -/
theorem newton_fixed_point_iff {K : Type} [LinearOrderedField K] (q : quaternion K)
    (h : q ≠ quaternion.zero) :
    (newton q = q ↔ q.cube = ⟨1, 0, 0, 0⟩) ∧ (q.cube = ⟨1, 0, 0, 0⟩ ↔ func q = ⟨0, 0, 0, 0⟩) := by
  have hN : q.norm_sq ≠ 0 := (quaternion.norm_sq_pos q h).ne.symm
  have hD : (q.square.mul_scalar 3).norm_sq ≠ 0 := by
    rw [quaternion.norm_sq_three_square]
    exact mul_ne_zero (by norm_num) (pow_ne_zero 2 hN)
  constructor
  · constructor
    · intro hfix
      have hnum : (q.cube.mul_scalar 2).add_scalar 1 = q.cube.mul_scalar 3 := by
        have h1 := quaternion.div_mul_same ((q.cube.mul_scalar 2).add_scalar 1)
          (q.square.mul_scalar 3) hD
        have h2 : newton q = ((q.cube.mul_scalar 2).add_scalar 1).div
            (q.square.mul_scalar 3) := rfl
        rw [← h2, hfix, quaternion.mul_three_square] at h1
        exact h1.symm
      have e0 : 2 * q.cube.dat0 + 1 = 3 * q.cube.dat0 := congrArg quaternion.dat0 hnum
      have e1 : 2 * q.cube.dat1 = 3 * q.cube.dat1 := congrArg quaternion.dat1 hnum
      have e2 : 2 * q.cube.dat2 = 3 * q.cube.dat2 := congrArg quaternion.dat2 hnum
      have e3 : 2 * q.cube.dat3 = 3 * q.cube.dat3 := congrArg quaternion.dat3 hnum
      ext <;> simp only [] <;> linarith
    · intro hcube
      have hnum : (q.cube.mul_scalar 2).add_scalar 1 = q.mul (q.square.mul_scalar 3) := by
        rw [quaternion.mul_three_square, hcube]
        ext <;> norm_num [quaternion.mul_scalar, quaternion.add_scalar]
      have h2 : newton q = ((q.cube.mul_scalar 2).add_scalar 1).div
          (q.square.mul_scalar 3) := rfl
      rw [h2, hnum]
      exact quaternion.mul_div_same q _ hD
  · constructor
    · intro hcube
      unfold func
      rw [hcube]
      ext <;> simp [quaternion.sub_scalar]
    · intro hf
      have e0 : q.cube.dat0 - 1 = 0 := congrArg quaternion.dat0 hf
      have e1 : q.cube.dat1 = 0 := congrArg quaternion.dat1 hf
      have e2 : q.cube.dat2 = 0 := congrArg quaternion.dat2 hf
      have e3 : q.cube.dat3 = 0 := congrArg quaternion.dat3 hf
      ext <;> simp only [] <;> linarith

/-- C35 at the root `q = (-1/2, 1/2, 1/2, 1/2)` over `ℚ`, a fixed point of
`newton`. -/
theorem newton_fixed_point_iff_witness :
    (⟨-1 / 2, 1 / 2, 1 / 2, 1 / 2⟩ : quaternion ℚ) ≠ quaternion.zero ∧
      newton (⟨-1 / 2, 1 / 2, 1 / 2, 1 / 2⟩ : quaternion ℚ) = ⟨-1 / 2, 1 / 2, 1 / 2, 1 / 2⟩ :=
  ⟨by norm_num [quaternion.zero],
    (newton_fixed_point_iff ⟨-1 / 2, 1 / 2, 1 / 2, 1 / 2⟩ (by norm_num [quaternion.zero])).1.mpr
      (by ext <;> norm_num [quaternion.cube])⟩

/-! ## Colour arithmetic -/

section colour_arithmetic

variable {K : Type} [LinearOrderedField K] [FloorRing K]

/-- The cast of the average of two channels in `0..255` is the sum halved,
rounded down. -/
theorem to_uchar_average (n m : Nat) (hn : n ≤ 255) (hm : m ≤ 255) :
    to_uchar ((0.5 : K) * ((n : K) + (m : K))) = (n + m) / 2 := by
  have hdm : (n + m) % 2 + 2 * ((n + m) / 2) = n + m := Nat.mod_add_div (n + m) 2
  have hr : (n + m) % 2 < 2 := Nat.mod_lt _ (by norm_num)
  have hcast : (((n + m) % 2 : Nat) : K) + 2 * (((n + m) / 2 : Nat) : K) = (n : K) + (m : K) := by
    exact_mod_cast hdm
  have hr0 : (0 : K) ≤ (((n + m) % 2 : Nat) : K) := Nat.cast_nonneg _
  have hr2 : (((n + m) % 2 : Nat) : K) < 2 := by exact_mod_cast hr
  apply to_uchar_eq _ ((n + m) / 2) (by omega)
  · norm_num
    linarith
  · norm_num
    linarith

/-- The cast of a scaled channel, for a scale in `[0, 1]` and a channel in
`0..255`, is the integer part of the product. -/
theorem to_uchar_scaled (t : K) (n : Nat) (h0 : 0 ≤ t) (h1 : t ≤ 1) (hn : n ≤ 255) :
    to_uchar (t * (n : K)) = ⌊t * (n : K)⌋₊ ∧ ⌊t * (n : K)⌋₊ ≤ n := by
  have hn0 : (0 : K) ≤ n := Nat.cast_nonneg n
  have hn' : (n : K) ≤ 255 := by exact_mod_cast hn
  have hle : t * (n : K) ≤ n := by nlinarith
  constructor
  · exact to_uchar_of_lt_256 _ (mul_nonneg h0 hn0) (by linarith)
  · calc ⌊t * (n : K)⌋₊ ≤ ⌊(n : K)⌋₊ := Nat.floor_mono hle
      _ = n := Nat.floor_natCast n

/-- C31: colour mixing with `operator+` returns the channel-wise average rounded
down: for all colours `c1`, `c2` (channels in `0..255`) each channel of `c1 + c2`
equals `floor((c1.ch + c2.ch)/2)`; hence `c1 + c2 = c2 + c1` and `c + c = c`, and
`operator+=` stores the same result in `*this`. -/
theorem color_add_average (c1 c2 : color) (h1 : c1.red ≤ 255 ∧ c1.green ≤ 255 ∧ c1.blue ≤ 255)
    (h2 : c2.red ≤ 255 ∧ c2.green ≤ 255 ∧ c2.blue ≤ 255) :
    color.add K c1 c2 = ⟨(c1.red + c2.red) / 2, (c1.green + c2.green) / 2,
        (c1.blue + c2.blue) / 2⟩ ∧
      color.add K c1 c2 = color.add K c2 c1 ∧ color.add K c1 c1 = c1 ∧
      color.add_assign K c1 c2 = color.add K c1 c2 := by
  have e : ∀ a b : color, a.red ≤ 255 ∧ a.green ≤ 255 ∧ a.blue ≤ 255 →
      b.red ≤ 255 ∧ b.green ≤ 255 ∧ b.blue ≤ 255 →
      color.add K a b = ⟨(a.red + b.red) / 2, (a.green + b.green) / 2,
        (a.blue + b.blue) / 2⟩ := by
    intro a b ha hb
    simp only [color.add]
    rw [to_uchar_average _ _ ha.1 hb.1, to_uchar_average _ _ ha.2.1 hb.2.1,
      to_uchar_average _ _ ha.2.2 hb.2.2]
  refine ⟨e c1 c2 h1 h2, ?_, ?_, rfl⟩
  · rw [e c1 c2 h1 h2, e c2 c1 h2 h1]
    simp only [Nat.add_comm]
  · rw [e c1 c1 h1 h1]
    ext <;> simp only [] <;> omega

/-- C31 at `c1 = (10,21,255)`, `c2 = (11,22,255)` over `ℚ`. -/
theorem color_add_average_witness :
    color.add ℚ ⟨10, 21, 255⟩ ⟨11, 22, 255⟩ = ⟨10, 21, 255⟩ ∧
      color.add ℚ ⟨10, 21, 255⟩ ⟨11, 22, 255⟩ = color.add ℚ ⟨11, 22, 255⟩ ⟨10, 21, 255⟩ :=
  ⟨(color_add_average (K := ℚ) ⟨10, 21, 255⟩ ⟨11, 22, 255⟩ (by decide) (by decide)).1,
    (color_add_average (K := ℚ) ⟨10, 21, 255⟩ ⟨11, 22, 255⟩ (by decide) (by decide)).2.1⟩

/-- In exact arithmetic colour scaling truncates the exact product: for every
colour `c` (channels in `0..255`) and every `t` with `0 ≤ t ≤ 1`, each channel of
`c * t` equals `floor(t·ch)` and is `≤ ch`, with `c * 1 = c` and `c * 0 =` black,
and `operator*=` gives the same.  This is a fact of the exact model only: in
binary64 the product is rounded before the cast, see
`color_mul_scalar_binary64_not_floor`. -/
theorem color_mul_scalar_floor (c : color) (t : K)
    (hc : c.red ≤ 255 ∧ c.green ≤ 255 ∧ c.blue ≤ 255) (h0 : 0 ≤ t) (h1 : t ≤ 1) :
    c.mul_scalar t = ⟨⌊t * (c.red : K)⌋₊, ⌊t * (c.green : K)⌋₊, ⌊t * (c.blue : K)⌋₊⟩ ∧
      ((c.mul_scalar t).red ≤ c.red ∧ (c.mul_scalar t).green ≤ c.green ∧
        (c.mul_scalar t).blue ≤ c.blue) ∧
      c.mul_scalar (1 : K) = c ∧ c.mul_scalar (0 : K) = ⟨0, 0, 0⟩ ∧
      c.mul_scalar_assign t = c.mul_scalar t := by
  have e : ∀ u : K, 0 ≤ u → u ≤ 1 →
      c.mul_scalar u = ⟨⌊u * (c.red : K)⌋₊, ⌊u * (c.green : K)⌋₊, ⌊u * (c.blue : K)⌋₊⟩ := by
    intro u hu0 hu1
    simp only [color.mul_scalar]
    rw [(to_uchar_scaled u _ hu0 hu1 hc.1).1, (to_uchar_scaled u _ hu0 hu1 hc.2.1).1,
      (to_uchar_scaled u _ hu0 hu1 hc.2.2).1]
  refine ⟨e t h0 h1, ?_, ?_, ?_, rfl⟩
  · rw [e t h0 h1]
    exact ⟨(to_uchar_scaled t _ h0 h1 hc.1).2, (to_uchar_scaled t _ h0 h1 hc.2.1).2,
      (to_uchar_scaled t _ h0 h1 hc.2.2).2⟩
  · rw [e 1 zero_le_one (le_refl 1)]
    ext <;> simp
  · rw [e 0 (le_refl 0) zero_le_one]
    ext <;> simp

/-- Exact colour scaling at `c = (10,21,255)`, `t = 1/3` over `ℚ`. -/
theorem color_mul_scalar_floor_witness :
    (0 : ℚ) ≤ 1 / 3 ∧ (1 / 3 : ℚ) ≤ 1 ∧
      (⟨10, 21, 255⟩ : color).mul_scalar (1 / 3 : ℚ) =
        ⟨⌊(1 / 3 : ℚ) * ((10 : Nat) : ℚ)⌋₊, ⌊(1 / 3 : ℚ) * ((21 : Nat) : ℚ)⌋₊,
          ⌊(1 / 3 : ℚ) * ((255 : Nat) : ℚ)⌋₊⟩ :=
  ⟨by norm_num, by norm_num,
    (color_mul_scalar_floor ⟨10, 21, 255⟩ (1 / 3 : ℚ) (by decide) (by norm_num)
      (by norm_num)).1⟩

/-- C38: `color_wheel` always returns a fully saturated hue: for every angle, the
returned colour has at least one channel equal to 255 and at least one channel
equal to 0. -/
theorem color_wheel_saturated (angle : K) :
    ((color_wheel angle).red = 255 ∨ (color_wheel angle).green = 255 ∨
        (color_wheel angle).blue = 255) ∧
      ((color_wheel angle).red = 0 ∨ (color_wheel angle).green = 0 ∨
        (color_wheel angle).blue = 0) := by
  unfold color_wheel
  simp only []
  split_ifs <;> simp [colors.blue]

end colour_arithmetic

/-! ## The values cast in the hue wheel -/

/-- Every value that `color_wheel` casts lies in `[0, 256]`, and it is below `256`
unless the hue index is exactly `256`, `768` or `1280`, the first index of a
descending ramp. -/
theorem color_wheel_cast_range {K : Type} [LinearOrderedField K] (angle x : K) (h : color_wheel_cast angle = some x) :
    0 ≤ x ∧ x ≤ 256 ∧
      (x < 256 ∨ color_wheel_val angle = 256 ∨ color_wheel_val angle = 768 ∨
        color_wheel_val angle = 1280) := by
  unfold color_wheel_cast at h
  simp only [] at h
  split_ifs at h with h0 h1 h2 h3 h4 h5 h6
  · have e := Option.some.inj h
    subst e
    exact ⟨not_lt.mp h0, by linarith, Or.inl h1⟩
  · have e := Option.some.inj h
    subst e
    refine ⟨by linarith, by linarith, ?_⟩
    rcases eq_or_lt_of_le (not_lt.mp h1) with e | e
    · exact Or.inr (Or.inl e.symm)
    · exact Or.inl (by linarith)
  · have e := Option.some.inj h
    subst e
    exact ⟨by linarith, by linarith, Or.inl (by linarith)⟩
  · have e := Option.some.inj h
    subst e
    refine ⟨by linarith, by linarith, ?_⟩
    rcases eq_or_lt_of_le (not_lt.mp h3) with e | e
    · exact Or.inr (Or.inr (Or.inl e.symm))
    · exact Or.inl (by linarith)
  · have e := Option.some.inj h
    subst e
    exact ⟨by linarith, by linarith, Or.inl (by linarith)⟩
  · have e := Option.some.inj h
    subst e
    refine ⟨by linarith, by linarith, ?_⟩
    rcases eq_or_lt_of_le (not_lt.mp h5) with e | e
    · exact Or.inr (Or.inr (Or.inr e.symm))
    · exact Or.inl (by linarith)

/-- The value cast at a hue index `v` in `[256, 512)`. -/
theorem color_wheel_cast_seg2 {K : Type} [LinearOrderedField K] (angle : K) (h0 : 256 ≤ color_wheel_val angle)
    (h1 : color_wheel_val angle < 512) :
    color_wheel_cast angle = some (256 - (color_wheel_val angle - 256)) := by
  unfold color_wheel_cast
  simp only []
  rw [if_neg (not_lt.mpr (by linarith)), if_neg (not_lt.mpr h0), if_pos h1]

/-- The value cast at a hue index `v` in `[768, 1024)`. -/
theorem color_wheel_cast_seg4 {K : Type} [LinearOrderedField K] (angle : K)
    (h0 : 768 ≤ color_wheel_val angle) (h1 : color_wheel_val angle < 1024) :
    color_wheel_cast angle = some (256 - (color_wheel_val angle - 768)) := by
  unfold color_wheel_cast
  simp only []
  rw [if_neg (not_lt.mpr (by linarith)), if_neg (not_lt.mpr (by linarith)),
    if_neg (not_lt.mpr (by linarith)), if_neg (not_lt.mpr h0), if_pos h1]

/-- The value cast at a hue index `v` in `[1280, 1536)`. -/
theorem color_wheel_cast_seg6 {K : Type} [LinearOrderedField K] (angle : K)
    (h0 : 1280 ≤ color_wheel_val angle) (h1 : color_wheel_val angle < 1536) :
    color_wheel_cast angle = some (256 - (color_wheel_val angle - 1280)) := by
  unfold color_wheel_cast
  simp only []
  rw [if_neg (not_lt.mpr (by linarith)), if_neg (not_lt.mpr (by linarith)),
    if_neg (not_lt.mpr (by linarith)), if_neg (not_lt.mpr (by linarith)),
    if_neg (not_lt.mpr (by linarith)), if_neg (not_lt.mpr h0), if_pos h1]

section wheel_casts

variable {K : Type} [LinearOrderedField K] [FloorRing K]

/-- The value of `color_wheel_cast` is the one whose cast is a channel of
`color_wheel`; where there is none, `color_wheel` returns blue. -/
theorem color_wheel_cast_channel (angle : K) :
    (color_wheel_cast angle = none ∧ color_wheel angle = colors.blue) ∨
      ∃ x : K, color_wheel_cast angle = some x ∧
        ((color_wheel angle).red = to_uchar x ∨ (color_wheel angle).green = to_uchar x ∨
          (color_wheel angle).blue = to_uchar x) := by
  unfold color_wheel_cast color_wheel
  simp only []
  split_ifs
  · exact Or.inl ⟨rfl, rfl⟩
  · exact Or.inr ⟨_, rfl, Or.inr (Or.inl rfl)⟩
  · exact Or.inr ⟨_, rfl, Or.inr (Or.inr rfl)⟩
  · exact Or.inr ⟨_, rfl, Or.inl rfl⟩
  · exact Or.inr ⟨_, rfl, Or.inr (Or.inl rfl)⟩
  · exact Or.inr ⟨_, rfl, Or.inr (Or.inr rfl)⟩
  · exact Or.inr ⟨_, rfl, Or.inl rfl⟩
  · exact Or.inl ⟨rfl, rfl⟩

/-- C37, the code at the failing inputs: at the hue indices `768`, `256` and
`1280`, the first index of a descending ramp, the value `256.0 - val` that is cast
is `256`, which is not below 256, and a channel of the returned colour is the cast
of that value. -/
theorem color_wheel_cast_overflow :
    color_wheel_val ((768 : K) / gradient_factor - ONE_PI) = 768 ∧
      color_wheel_cast ((768 : K) / gradient_factor - ONE_PI) = some 256 ∧
      color_wheel ((768 : K) / gradient_factor - ONE_PI) = ⟨255, to_uchar (256 : K), 0⟩ ∧
      color_wheel_cast ((256 : K) / gradient_factor - ONE_PI) = some 256 ∧
      color_wheel ((256 : K) / gradient_factor - ONE_PI) = ⟨0, 255, to_uchar (256 : K)⟩ ∧
      color_wheel_cast ((1280 : K) / gradient_factor - ONE_PI) = some 256 ∧
      color_wheel ((1280 : K) / gradient_factor - ONE_PI) = ⟨to_uchar (256 : K), 0, 255⟩ ∧
      ¬ ((256 : K) < 256) := by
  have h2 := color_wheel_val_of_index (256 : K)
  have h4 := color_wheel_val_of_index (768 : K)
  have h6 := color_wheel_val_of_index (1280 : K)
  refine ⟨h4, ?_, ?_, ?_, ?_, ?_, ?_, lt_irrefl _⟩
  · rw [color_wheel_cast_seg4 _ (by rw [h4]) (by rw [h4]; norm_num), h4]
    norm_num
  · rw [color_wheel_seg4 _ (by rw [h4]) (by rw [h4]; norm_num), h4]
    norm_num
  · rw [color_wheel_cast_seg2 _ (by rw [h2]) (by rw [h2]; norm_num), h2]
    norm_num
  · rw [color_wheel_seg2 _ (by rw [h2]) (by rw [h2]; norm_num), h2]
    norm_num
  · rw [color_wheel_cast_seg6 _ (by rw [h6]) (by rw [h6]; norm_num), h6]
    norm_num
  · rw [color_wheel_seg6 _ (by rw [h6]) (by rw [h6]; norm_num), h6]
    norm_num

end wheel_casts

/-! ## The sample plane as an isometric embedding -/

/-- C39: the pixel-to-quaternion map is an isometric embedding of the sample
plane: for every frame angle `θ` and all real `a0`, `a1` (here `s0`, `s1`), the
initial quaternion `q = u0*a0 + u1*a1` equals
`(a0·cos θ, a0·sin θ, a1·cos θ, a1·sin θ)` and satisfies
`q.norm_sq() = a0² + a1²`, as does the difference of two such points; for a pixel,
`a0` is derived from the row `y` and `a1` from the column `x`. -/
theorem plane_point_isometric (θ s0 s1 t0 t1 : ℝ) :
    plane_point (Real.cos θ) (Real.sin θ) s0 s1 =
        ⟨s0 * Real.cos θ, s0 * Real.sin θ, s1 * Real.cos θ, s1 * Real.sin θ⟩ ∧
      (plane_point (Real.cos θ) (Real.sin θ) s0 s1).norm_sq = s0 ^ 2 + s1 ^ 2 ∧
      ((plane_point (Real.cos θ) (Real.sin θ) s0 s1).sub
        (plane_point (Real.cos θ) (Real.sin θ) t0 t1)).norm_sq =
          (s0 - t0) ^ 2 + (s1 - t1) ^ 2 ∧
      ∀ x y : Nat, pixel_start (Real.cos θ) (Real.sin θ) x y =
        plane_point (Real.cos θ) (Real.sin θ) (setup.start + setup.pyfact * (y : ℝ))
          (setup.start + setup.pxfact * (x : ℝ)) := by
  have h := Real.cos_sq_add_sin_sq θ
  have e : ∀ c0 c1 : ℝ, plane_point (Real.cos θ) (Real.sin θ) c0 c1 =
      ⟨c0 * Real.cos θ, c0 * Real.sin θ, c1 * Real.cos θ, c1 * Real.sin θ⟩ := by
    intro c0 c1
    ext <;> simp [plane_point, u0, u1, quaternion.add, quaternion.mul_scalar]
  refine ⟨e s0 s1, ?_, ?_, fun x y => rfl⟩
  · rw [e]
    simp only [quaternion.norm_sq]
    linear_combination (s0 ^ 2 + s1 ^ 2) * h
  · rw [e, e]
    simp only [quaternion.norm_sq, quaternion.sub]
    linear_combination ((s0 - t0) ^ 2 + (s1 - t1) ^ 2) * h

/-! ## Binary64 rounding: the hue wheel and colour scaling as the program computes them -/

/-- An integer is its own rounding. -/
theorem round_half_even_intCast (n : ℤ) : round_half_even (n : ℚ) = n := by
  unfold round_half_even
  simp

/-- The rounding of `x` is the integer part of `x` or the next integer. -/
theorem round_half_even_bounds (x : ℚ) :
    ⌊x⌋ ≤ round_half_even x ∧ round_half_even x ≤ ⌊x⌋ + 1 := by
  unfold round_half_even
  split_ifs <;> omega

/-- Rounding to the nearest integer is monotone. -/
theorem round_half_even_mono (x y : ℚ) (h : x ≤ y) : round_half_even x ≤ round_half_even y := by
  have hf : ⌊x⌋ ≤ ⌊y⌋ := Int.floor_mono h
  rcases hf.lt_or_eq with hlt | heq
  · have h1 := (round_half_even_bounds x).2
    have h2 := (round_half_even_bounds y).1
    omega
  · unfold round_half_even
    rw [← heq]
    have hxy : x - (⌊x⌋ : ℚ) ≤ y - (⌊x⌋ : ℚ) := by linarith
    split_ifs <;> first | omega | (exfalso; linarith)

/-- A number strictly within half a unit of the integer `n` rounds to `n`. -/
theorem round_half_even_eq (x : ℚ) (n : ℤ) (h1 : (n : ℚ) - 1 / 2 < x) (h2 : x < (n : ℚ) + 1 / 2) :
    round_half_even x = n := by
  have hb := round_half_even_bounds x
  have hfl : (⌊x⌋ : ℚ) ≤ x := Int.floor_le x
  have hfu : x < (⌊x⌋ : ℚ) + 1 := Int.lt_floor_add_one x
  unfold round_half_even
  split_ifs with c1 c2 c3
  · have a1 : ((⌊x⌋ : ℤ) : ℚ) < (n : ℚ) + 1 / 2 := by linarith
    have a2 : (n : ℚ) - 1 < ((⌊x⌋ : ℤ) : ℚ) := by linarith
    have b1 : ⌊x⌋ < n + 1 := by
      have : ((⌊x⌋ : ℤ) : ℚ) < ((n + 1 : ℤ) : ℚ) := by push_cast; linarith
      exact_mod_cast this
    have b2 : n - 1 < ⌊x⌋ := by
      have : ((n - 1 : ℤ) : ℚ) < ((⌊x⌋ : ℤ) : ℚ) := by push_cast; linarith
      exact_mod_cast this
    omega
  · have b1 : ⌊x⌋ < n := by
      have : ((⌊x⌋ : ℤ) : ℚ) < ((n : ℤ) : ℚ) := by linarith
      exact_mod_cast this
    have b2 : n - 2 < ⌊x⌋ := by
      have : ((n - 2 : ℤ) : ℚ) < ((⌊x⌋ : ℤ) : ℚ) := by push_cast; linarith
      exact_mod_cast this
    omega
  · exfalso
    have e : x - (⌊x⌋ : ℚ) = 1 / 2 := le_antisymm (not_lt.mp c2) (not_lt.mp c1)
    have b1 : ⌊x⌋ < n := by
      have : ((⌊x⌋ : ℤ) : ℚ) < ((n : ℤ) : ℚ) := by linarith
      exact_mod_cast this
    have b2 : n - 1 < ⌊x⌋ := by
      have : ((n - 1 : ℤ) : ℚ) < ((⌊x⌋ : ℤ) : ℚ) := by push_cast; linarith
      exact_mod_cast this
    omega
  · exfalso
    have e : x - (⌊x⌋ : ℚ) = 1 / 2 := le_antisymm (not_lt.mp c2) (not_lt.mp c1)
    have b1 : ⌊x⌋ < n := by
      have : ((⌊x⌋ : ℤ) : ℚ) < ((n : ℤ) : ℚ) := by linarith
      exact_mod_cast this
    have b2 : n - 1 < ⌊x⌋ := by
      have : ((n - 1 : ℤ) : ℚ) < ((⌊x⌋ : ℤ) : ℚ) := by push_cast; linarith
      exact_mod_cast this
    omega

/-- The binary exponent of a positive number in `[2^e, 2^(e+1))` is `e`. -/
theorem log_two_eq (x : ℚ) (e : ℤ) (hx : 0 < x) (h1 : (2 : ℚ) ^ e ≤ x)
    (h2 : x < (2 : ℚ) ^ (e + 1)) : Int.log 2 x = e := by
  have a1 : e ≤ Int.log 2 x := by
    rw [← Int.zpow_le_iff_le_log (by norm_num) hx]
    simpa using h1
  have a2 : Int.log 2 x < e + 1 := by
    rw [← Int.lt_zpow_iff_log_lt (by norm_num) hx]
    simpa using h2
  omega

/-- A positive number lies in the binade of its binary exponent. -/
theorem log_two_bounds (x : ℚ) (hx : 0 < x) :
    (2 : ℚ) ^ (Int.log 2 x) ≤ x ∧ x < (2 : ℚ) ^ (Int.log 2 x + 1) := by
  constructor
  · simpa using Int.zpow_log_le_self (b := 2) (by norm_num) hx
  · simpa using Int.lt_zpow_succ_log_self (b := 2) (by norm_num) x

/-- The rounding of a positive number in `[2^e, 2^(e+1))` is done in units of
`2^(e-52)`. -/
theorem binary64_pos_eq (x : ℚ) (e : ℤ) (hx : 0 < x) (h1 : (2 : ℚ) ^ e ≤ x)
    (h2 : x < (2 : ℚ) ^ (e + 1)) :
    binary64_pos x = (round_half_even (x / 2 ^ (e - 52)) : ℚ) * 2 ^ (e - 52) := by
  unfold binary64_pos
  rw [log_two_eq x e hx h1 h2]

/-- A positive number and its rounding lie in the same closed binade. -/
theorem binary64_pos_bounds (x : ℚ) (hx : 0 < x) :
    (2 : ℚ) ^ (Int.log 2 x) ≤ binary64_pos x ∧ binary64_pos x ≤ (2 : ℚ) ^ (Int.log 2 x + 1) := by
  obtain ⟨h1, h2⟩ := log_two_bounds x hx
  have hu : (0 : ℚ) < 2 ^ (Int.log 2 x - 52) := zpow_pos (by norm_num) _
  have e1 : (2 : ℚ) ^ (Int.log 2 x) = 2 ^ (52 : ℤ) * 2 ^ (Int.log 2 x - 52) := by
    rw [← zpow_add₀ (by norm_num)]
    congr 1
    ring
  have e2 : (2 : ℚ) ^ (Int.log 2 x + 1) = 2 ^ (53 : ℤ) * 2 ^ (Int.log 2 x - 52) := by
    rw [← zpow_add₀ (by norm_num)]
    congr 1
    ring
  have q1 : (((2 ^ 52 : ℤ)) : ℚ) ≤ x / 2 ^ (Int.log 2 x - 52) := by
    rw [le_div_iff₀ hu]
    rw [e1] at h1
    exact_mod_cast h1
  have q2 : x / 2 ^ (Int.log 2 x - 52) ≤ (((2 ^ 53 : ℤ)) : ℚ) := by
    rw [div_le_iff₀ hu]
    rw [e2] at h2
    exact_mod_cast h2.le
  have r1 := round_half_even_mono _ _ q1
  have r2 := round_half_even_mono _ _ q2
  rw [round_half_even_intCast] at r1 r2
  have r1' : ((2 : ℚ) ^ (52 : ℤ)) ≤ (round_half_even (x / 2 ^ (Int.log 2 x - 52)) : ℚ) := by
    exact_mod_cast r1
  have r2' : (round_half_even (x / 2 ^ (Int.log 2 x - 52)) : ℚ) ≤ ((2 : ℚ) ^ (53 : ℤ)) := by
    exact_mod_cast r2
  unfold binary64_pos
  rw [e1, e2]
  exact ⟨mul_le_mul_of_nonneg_right r1' hu.le, mul_le_mul_of_nonneg_right r2' hu.le⟩

/-- The rounding of a positive number is positive. -/
theorem binary64_pos_pos (x : ℚ) (hx : 0 < x) : 0 < binary64_pos x :=
  lt_of_lt_of_le (zpow_pos (by norm_num) _) (binary64_pos_bounds x hx).1

/-- Rounding is monotone on the positive numbers. -/
theorem binary64_pos_mono (x y : ℚ) (hx : 0 < x) (h : x ≤ y) :
    binary64_pos x ≤ binary64_pos y := by
  have hy : 0 < y := lt_of_lt_of_le hx h
  have hl : Int.log 2 x ≤ Int.log 2 y := Int.log_mono_right hx h
  rcases hl.lt_or_eq with hlt | heq
  · have b1 := (binary64_pos_bounds x hx).2
    have b2 := (binary64_pos_bounds y hy).1
    have b3 : (2 : ℚ) ^ (Int.log 2 x + 1) ≤ 2 ^ (Int.log 2 y) :=
      zpow_le_zpow_right₀ (by norm_num) (by omega)
    linarith
  · unfold binary64_pos
    rw [heq]
    have hu : (0 : ℚ) < 2 ^ (Int.log 2 y - 52) := zpow_pos (by norm_num) _
    have hq : x / 2 ^ (Int.log 2 y - 52) ≤ y / 2 ^ (Int.log 2 y - 52) :=
      div_le_div_of_nonneg_right h hu.le
    have hr := round_half_even_mono _ _ hq
    have hr' : (round_half_even (x / 2 ^ (Int.log 2 y - 52)) : ℚ) ≤
        (round_half_even (y / 2 ^ (Int.log 2 y - 52)) : ℚ) := by exact_mod_cast hr
    exact mul_le_mul_of_nonneg_right hr' hu.le

/-- Zero is its own rounding. -/
theorem binary64_zero : binary64 0 = 0 := by
  simp [binary64]

/-- The rounding of a positive number. -/
theorem binary64_of_pos (x : ℚ) (hx : 0 < x) : binary64 x = binary64_pos x := by
  unfold binary64
  rw [if_pos hx]

/-- The rounding of a negative number is minus the rounding of its magnitude. -/
theorem binary64_of_neg (x : ℚ) (hx : x < 0) : binary64 x = -binary64_pos (-x) := by
  unfold binary64
  rw [if_neg (not_lt.mpr hx.le), if_pos hx]

/-- Rounding to binary64 is monotone. -/
theorem binary64_mono (x y : ℚ) (h : x ≤ y) : binary64 x ≤ binary64 y := by
  rcases lt_trichotomy x 0 with hx | hx | hx
  · rw [binary64_of_neg x hx]
    have px := binary64_pos_pos (-x) (by linarith)
    rcases lt_trichotomy y 0 with hy | hy | hy
    · rw [binary64_of_neg y hy]
      have := binary64_pos_mono (-y) (-x) (by linarith) (by linarith)
      linarith
    · rw [hy, binary64_zero]
      linarith
    · rw [binary64_of_pos y hy]
      have := binary64_pos_pos y hy
      linarith
  · subst hx
    rw [binary64_zero]
    rcases h.lt_or_eq with hy | hy
    · rw [binary64_of_pos y hy]
      exact (binary64_pos_pos y hy).le
    · rw [← hy, binary64_zero]
  · rw [binary64_of_pos x hx, binary64_of_pos y (lt_of_lt_of_le hx h)]
    exact binary64_pos_mono x y hx h

/-- A natural number below `2^53` is a binary64 number. -/
theorem binary64_natCast (n : Nat) (h : n < 2 ^ 53) : binary64 (n : ℚ) = n := by
  rcases Nat.eq_zero_or_pos n with h0 | h0
  · subst h0
    simpa using binary64_zero
  · have hx : (0 : ℚ) < n := by exact_mod_cast h0
    rw [binary64_of_pos _ hx]
    obtain ⟨h1, _⟩ := log_two_bounds (n : ℚ) hx
    have hlt : (2 : ℚ) ^ (Int.log 2 (n : ℚ)) < 2 ^ (53 : ℤ) := by
      have : (n : ℚ) < 2 ^ (53 : ℤ) := by exact_mod_cast h
      linarith
    have he : Int.log 2 (n : ℚ) < 53 := (zpow_lt_zpow_iff_right₀ (by norm_num)).mp hlt
    obtain ⟨k, hk⟩ : ∃ k : Nat, Int.log 2 (n : ℚ) - 52 = -(k : ℤ) :=
      ⟨(52 - Int.log 2 (n : ℚ)).toNat, by omega⟩
    unfold binary64_pos
    rw [hk, zpow_neg, zpow_natCast]
    have hq : (n : ℚ) / (2 ^ k)⁻¹ = (((n * 2 ^ k : Nat) : ℤ) : ℚ) := by
      push_cast
      field_simp
    rw [hq, round_half_even_intCast]
    push_cast
    field_simp

/-- Evaluation of the rounding of a positive number whose scaled value is strictly
within half a unit of the integer `n`. -/
theorem binary64_eval (x : ℚ) (e n : ℤ) (hx : 0 < x) (h1 : (2 : ℚ) ^ e ≤ x)
    (h2 : x < (2 : ℚ) ^ (e + 1)) (h3 : (n : ℚ) - 1 / 2 < x / 2 ^ (e - 52))
    (h4 : x / 2 ^ (e - 52) < (n : ℚ) + 1 / 2) : binary64 x = (n : ℚ) * 2 ^ (e - 52) := by
  rw [binary64_of_pos x hx, binary64_pos_eq x e hx h1 h2, round_half_even_eq _ n h3 h4]

/-- The cast of the rounded product of a scale in `[0, 1]` and a channel in
`0..255`: it is the integer part of the rounded product, which is the integer
part of the exact product or one more, and it is at most the channel. -/
theorem to_uchar_binary64_scaled (t : ℚ) (n : Nat) (h0 : 0 ≤ t) (h1 : t ≤ 1) (hn : n ≤ 255) :
    to_uchar (binary64 (t * (n : ℚ))) = ⌊binary64 (t * (n : ℚ))⌋₊ ∧
      (⌊binary64 (t * (n : ℚ))⌋₊ = ⌊t * (n : ℚ)⌋₊ ∨
        ⌊binary64 (t * (n : ℚ))⌋₊ = ⌊t * (n : ℚ)⌋₊ + 1) ∧
      ⌊binary64 (t * (n : ℚ))⌋₊ ≤ n := by
  have hn0 : (0 : ℚ) ≤ n := Nat.cast_nonneg n
  have hx0 : 0 ≤ t * (n : ℚ) := mul_nonneg h0 hn0
  have hxn : t * (n : ℚ) ≤ n := by nlinarith
  have hfn : ⌊t * (n : ℚ)⌋₊ ≤ n := by
    calc ⌊t * (n : ℚ)⌋₊ ≤ ⌊(n : ℚ)⌋₊ := Nat.floor_mono hxn
      _ = n := Nat.floor_natCast n
  have hf1 : ((⌊t * (n : ℚ)⌋₊ : Nat) : ℚ) ≤ t * (n : ℚ) := Nat.floor_le hx0
  have hf2 : t * (n : ℚ) ≤ ((⌊t * (n : ℚ)⌋₊ + 1 : Nat) : ℚ) := by
    push_cast
    exact (Nat.lt_floor_add_one _).le
  have y1 := binary64_mono _ _ hf1
  have y2 := binary64_mono _ _ hf2
  have y3 := binary64_mono _ _ hxn
  rw [binary64_natCast _ (by omega)] at y1 y2 y3
  have hy0 : 0 ≤ binary64 (t * (n : ℚ)) := le_trans (Nat.cast_nonneg _) y1
  have g1 : ⌊t * (n : ℚ)⌋₊ ≤ ⌊binary64 (t * (n : ℚ))⌋₊ := Nat.le_floor y1
  have g2 : ⌊binary64 (t * (n : ℚ))⌋₊ ≤ ⌊t * (n : ℚ)⌋₊ + 1 := by
    calc ⌊binary64 (t * (n : ℚ))⌋₊ ≤ ⌊((⌊t * (n : ℚ)⌋₊ + 1 : Nat) : ℚ)⌋₊ := Nat.floor_mono y2
      _ = ⌊t * (n : ℚ)⌋₊ + 1 := Nat.floor_natCast _
  have g3 : ⌊binary64 (t * (n : ℚ))⌋₊ ≤ n := by
    calc ⌊binary64 (t * (n : ℚ))⌋₊ ≤ ⌊(n : ℚ)⌋₊ := Nat.floor_mono y3
      _ = n := Nat.floor_natCast n
  refine ⟨?_, by omega, g3⟩
  exact to_uchar_eq _ _ (by omega) (Nat.floor_le hy0) (Nat.lt_floor_add_one _)

/-- C32, as stated, fails: at `c = (10,21,255)` and `t = 0x1.5555555555555p-2`,
the `double` of `1/3`, the products `t·21` and `t·255` round to `7.0` and `85.0`,
so `c * t` is `(3,7,85)` while `floor(t·ch)` is `(3,6,84)`. -/
theorem color_mul_scalar_binary64_not_floor :
    (0 : ℚ) ≤ 6004799503160661 / 2 ^ 54 ∧ (6004799503160661 / 2 ^ 54 : ℚ) ≤ 1 ∧
      (⟨10, 21, 255⟩ : color).mul_scalar_binary64 (6004799503160661 / 2 ^ 54) = ⟨3, 7, 85⟩ ∧
      ⌊(6004799503160661 / 2 ^ 54 : ℚ) * ((10 : Nat) : ℚ)⌋₊ = 3 ∧
      ⌊(6004799503160661 / 2 ^ 54 : ℚ) * ((21 : Nat) : ℚ)⌋₊ = 6 ∧
      ⌊(6004799503160661 / 2 ^ 54 : ℚ) * ((255 : Nat) : ℚ)⌋₊ = 84 ∧
      (⟨10, 21, 255⟩ : color).mul_scalar_binary64 (6004799503160661 / 2 ^ 54) ≠
        ⟨⌊(6004799503160661 / 2 ^ 54 : ℚ) * ((10 : Nat) : ℚ)⌋₊,
          ⌊(6004799503160661 / 2 ^ 54 : ℚ) * ((21 : Nat) : ℚ)⌋₊,
          ⌊(6004799503160661 / 2 ^ 54 : ℚ) * ((255 : Nat) : ℚ)⌋₊⟩ := by
  have e10 : binary64 ((6004799503160661 / 2 ^ 54 : ℚ) * ((10 : Nat) : ℚ)) =
      7505999378950826 / 2 ^ 51 := by
    rw [binary64_eval _ 1 7505999378950826 (by norm_num) (by norm_num) (by norm_num)
      (by norm_num) (by norm_num)]
    norm_num
  have e21 : binary64 ((6004799503160661 / 2 ^ 54 : ℚ) * ((21 : Nat) : ℚ)) = 7 := by
    rw [binary64_eval _ 2 7881299347898368 (by norm_num) (by norm_num) (by norm_num)
      (by norm_num) (by norm_num)]
    norm_num
  have e255 : binary64 ((6004799503160661 / 2 ^ 54 : ℚ) * ((255 : Nat) : ℚ)) = 85 := by
    rw [binary64_eval _ 6 5981343255101440 (by norm_num) (by norm_num) (by norm_num)
      (by norm_num) (by norm_num)]
    norm_num
  have hc : (⟨10, 21, 255⟩ : color).mul_scalar_binary64 (6004799503160661 / 2 ^ 54) =
      ⟨3, 7, 85⟩ := by
    simp only [color.mul_scalar_binary64]
    rw [e10, e21, e255, to_uchar_eq _ 3 (by norm_num) (by norm_num) (by norm_num),
      to_uchar_eq _ 7 (by norm_num) (by norm_num) (by norm_num),
      to_uchar_eq _ 85 (by norm_num) (by norm_num) (by norm_num)]
  have f10 : ⌊(6004799503160661 / 2 ^ 54 : ℚ) * ((10 : Nat) : ℚ)⌋₊ = 3 := by
    rw [Nat.floor_eq_iff (by norm_num)]
    constructor <;> norm_num
  have f21 : ⌊(6004799503160661 / 2 ^ 54 : ℚ) * ((21 : Nat) : ℚ)⌋₊ = 6 := by
    rw [Nat.floor_eq_iff (by norm_num)]
    constructor <;> norm_num
  have f255 : ⌊(6004799503160661 / 2 ^ 54 : ℚ) * ((255 : Nat) : ℚ)⌋₊ = 84 := by
    rw [Nat.floor_eq_iff (by norm_num)]
    constructor <;> norm_num
  refine ⟨by norm_num, by norm_num, hc, f10, f21, f255, ?_⟩
  rw [hc, f10, f21, f255]
  decide

/-- C32, amended: colour scaling with `operator*` scales each channel by `t` in
binary64 and truncates: for every colour `c` (channels in `0..255`) and every `t`
with `0 ≤ t ≤ 1`, each channel of `c * t` is the integer part of the rounded
product `t·ch`, which is `floor(t·ch)` or `floor(t·ch) + 1`, and is `≤ ch`, with
`c * 1 = c` and `c * 0 =` black; `operator*=` stores the same result in `*this`. -/
theorem color_mul_scalar_binary64_spec (c : color) (t : ℚ)
    (hc : c.red ≤ 255 ∧ c.green ≤ 255 ∧ c.blue ≤ 255) (h0 : 0 ≤ t) (h1 : t ≤ 1) :
    c.mul_scalar_binary64 t = ⟨⌊binary64 (t * (c.red : ℚ))⌋₊, ⌊binary64 (t * (c.green : ℚ))⌋₊,
        ⌊binary64 (t * (c.blue : ℚ))⌋₊⟩ ∧
      ((c.mul_scalar_binary64 t).red = ⌊t * (c.red : ℚ)⌋₊ ∨
        (c.mul_scalar_binary64 t).red = ⌊t * (c.red : ℚ)⌋₊ + 1) ∧
      ((c.mul_scalar_binary64 t).green = ⌊t * (c.green : ℚ)⌋₊ ∨
        (c.mul_scalar_binary64 t).green = ⌊t * (c.green : ℚ)⌋₊ + 1) ∧
      ((c.mul_scalar_binary64 t).blue = ⌊t * (c.blue : ℚ)⌋₊ ∨
        (c.mul_scalar_binary64 t).blue = ⌊t * (c.blue : ℚ)⌋₊ + 1) ∧
      ((c.mul_scalar_binary64 t).red ≤ c.red ∧ (c.mul_scalar_binary64 t).green ≤ c.green ∧
        (c.mul_scalar_binary64 t).blue ≤ c.blue) ∧
      c.mul_scalar_binary64 1 = c ∧ c.mul_scalar_binary64 0 = ⟨0, 0, 0⟩ ∧
      c.mul_scalar_assign_binary64 t = c.mul_scalar_binary64 t := by
  obtain ⟨r1, r2, r3⟩ := to_uchar_binary64_scaled t c.red h0 h1 hc.1
  obtain ⟨g1, g2, g3⟩ := to_uchar_binary64_scaled t c.green h0 h1 hc.2.1
  obtain ⟨b1, b2, b3⟩ := to_uchar_binary64_scaled t c.blue h0 h1 hc.2.2
  have e : c.mul_scalar_binary64 t = ⟨⌊binary64 (t * (c.red : ℚ))⌋₊,
      ⌊binary64 (t * (c.green : ℚ))⌋₊, ⌊binary64 (t * (c.blue : ℚ))⌋₊⟩ := by
    simp only [color.mul_scalar_binary64]
    rw [r1, g1, b1]
  have one : ∀ n : Nat, n ≤ 255 → to_uchar (binary64 ((1 : ℚ) * (n : ℚ))) = n := by
    intro n hn
    rw [one_mul, binary64_natCast n (by omega)]
    exact to_uchar_eq _ n (by omega) (le_refl _) (by linarith)
  have zero : ∀ n : Nat, to_uchar (binary64 ((0 : ℚ) * (n : ℚ))) = 0 := by
    intro n
    rw [zero_mul, binary64_zero]
    exact to_uchar_eq _ 0 (by norm_num) (by norm_num) (by norm_num)
  refine ⟨e, ?_, ?_, ?_, ?_, ?_, ?_, rfl⟩
  · rw [e]
    exact r2
  · rw [e]
    exact g2
  · rw [e]
    exact b2
  · rw [e]
    exact ⟨r3, g3, b3⟩
  · simp only [color.mul_scalar_binary64]
    rw [one _ hc.1, one _ hc.2.1, one _ hc.2.2]
  · simp only [color.mul_scalar_binary64]
    rw [zero, zero, zero]

/-- C32 at `c = (10,21,255)` and `t = 0x1.5555555555555p-2`, where the second and
third channels are `floor(t·ch) + 1`. -/
theorem color_mul_scalar_binary64_spec_witness :
    (0 : ℚ) ≤ 6004799503160661 / 2 ^ 54 ∧ (6004799503160661 / 2 ^ 54 : ℚ) ≤ 1 ∧
      ((⟨10, 21, 255⟩ : color).mul_scalar_binary64 (6004799503160661 / 2 ^ 54)).green ≤ 21 :=
  ⟨by norm_num, by norm_num,
    (color_mul_scalar_binary64_spec ⟨10, 21, 255⟩ (6004799503160661 / 2 ^ 54) (by decide)
      (by norm_num) (by norm_num)).2.2.2.2.1.2.1⟩

end qnf
